import Mathlib

set_option maxHeartbeats 1000000

/-!
Shallow embedding of three subsystems of the hanabi1224/rust-libp2p repository:

* `misc/allow-block-list/src/lib.rs` — the allow/block admission gate;
* `protocols/kad/src/query.rs` — the query pool and its statistics;
* `protocols/rendezvous/src/server.rs` — the rendezvous registration store.

Machine integers (`u64`, `usize`, `u32`) are modelled as `Nat`; `Instant` and
`Duration` are modelled as `Nat` (seconds).  `PeerId` is an opaque identifier
with decidable equality, modelled as `Nat`.  Hash maps and hash sets are
modelled as association lists and duplicate-free lists; iteration order of a
hash map is unspecified in Rust, and no theorem below depends on the order
chosen by the list model.  Randomly drawn fresh identifiers
(`RegistrationId::new`, cookie identifiers) are modelled by a freshness
counter threaded through the state.
-/

namespace LibP2P

/-! ### Association list helpers (model of `HashMap` / `BiMap` operations) -/

/-- Lookup in an association list: value of the first entry with the given key. -/
def alookup {α β : Type} [DecidableEq α] (k : α) (l : List (α × β)) : Option β :=
  (l.find? (fun e => decide (e.1 = k))).map (fun e => e.2)

/-- `HashMap::insert`: replace any entry with the given key. -/
def mapInsert {α β : Type} [DecidableEq α] (k : α) (v : β) (l : List (α × β)) :
    List (α × β) :=
  (l.filter (fun e => decide (e.1 ≠ k))) ++ [(k, v)]

/-- `HashMap::remove`: drop the entry with the given key. -/
def mapRemove {α β : Type} [DecidableEq α] (k : α) (l : List (α × β)) : List (α × β) :=
  l.filter (fun e => decide (e.1 ≠ k))

/-! ### Allow/block admission gate (`misc/allow-block-list/src/lib.rs`) -/

/-- `PeerId`: opaque identifier with equality. -/
abbrev PeerId := Nat

/-- The causes wrapped in `ConnectionDenied` by this module: `NotAllowed` (the
peer is not in the allow list) and `Blocked` (the peer is in the block list). -/
inductive DenyCause where
  | notAllowed (peer : PeerId)
  | blocked (peer : PeerId)
deriving DecidableEq

/-- `Behaviour<S>` where `S` is `AllowedPeers` or `BlockedPeers`: both wrap a
`HashSet<PeerId>` (modelled as a duplicate-free list), a `VecDeque<PeerId>` of
close orders, and an optional stored waker (modelled by an opaque `Nat` id). -/
structure GateBehaviour where
  peers : List PeerId
  closeConnections : List PeerId
  waker : Option Nat
deriving DecidableEq

/-- `Behaviour::<AllowedPeers>::allow_peer`: insert; on a new insertion wake
(take the stored waker).  Returns whether the peer was newly inserted. -/
def GateBehaviour.allowPeer (b : GateBehaviour) (p : PeerId) : Bool × GateBehaviour :=
  if b.peers.contains p then (false, b)
  else (true, { b with peers := b.peers ++ [p], waker := none })

/-- `Behaviour::<AllowedPeers>::disallow_peer`: remove; on removal push a close
order for the peer and wake.  Returns whether the peer was present. -/
def GateBehaviour.disallowPeer (b : GateBehaviour) (p : PeerId) : Bool × GateBehaviour :=
  if b.peers.contains p then
    (true, { b with peers := b.peers.filter (fun q => decide (q ≠ p)),
                    closeConnections := b.closeConnections ++ [p], waker := none })
  else (false, b)

/-- `Behaviour::<BlockedPeers>::block_peer`: insert; on a new insertion push a
close order for the peer and wake.  Returns whether the peer was newly inserted. -/
def GateBehaviour.blockPeer (b : GateBehaviour) (p : PeerId) : Bool × GateBehaviour :=
  if b.peers.contains p then (false, b)
  else (true, { b with peers := b.peers ++ [p],
                       closeConnections := b.closeConnections ++ [p], waker := none })

/-- `Behaviour::<BlockedPeers>::unblock_peer`: remove and wake on removal.
Returns whether the peer was present. -/
def GateBehaviour.unblockPeer (b : GateBehaviour) (p : PeerId) : Bool × GateBehaviour :=
  if b.peers.contains p then
    (true, { b with peers := b.peers.filter (fun q => decide (q ≠ p)), waker := none })
  else (false, b)

/-- Which `Enforce` implementation is in force: `AllowedPeers` or `BlockedPeers`. -/
inductive GateMode where
  | allowMode
  | blockMode
deriving DecidableEq

/-- The `Enforce` trait: `AllowedPeers::enforce` denies with `NotAllowed` when
the peer is not in the set; `BlockedPeers::enforce` denies with `Blocked` when
the peer is in the set. -/
def enforce (m : GateMode) (peers : List PeerId) (p : PeerId) : Except DenyCause Unit :=
  match m with
  | .allowMode => if peers.contains p then .ok () else .error (.notAllowed p)
  | .blockMode => if peers.contains p then .error (.blocked p) else .ok ()

/-- `NetworkBehaviour::handle_established_inbound_connection`: enforce, then
hand out the dummy connection handler (modelled as `Unit`). -/
def GateBehaviour.handleEstablishedInbound (m : GateMode) (b : GateBehaviour)
    (p : PeerId) : Except DenyCause Unit :=
  enforce m b.peers p

/-- `NetworkBehaviour::handle_pending_outbound_connection`: when the peer id is
known, enforce; otherwise permit.  On success returns an empty address list. -/
def GateBehaviour.handlePendingOutbound (m : GateMode) (b : GateBehaviour)
    (p : Option PeerId) : Except DenyCause (List Nat) :=
  match p with
  | some q =>
    match enforce m b.peers q with
    | .ok _ => .ok []
    | .error e => .error e
  | none => .ok []

/-- `NetworkBehaviour::handle_established_outbound_connection`: enforce, then
hand out the dummy connection handler. -/
def GateBehaviour.handleEstablishedOutbound (m : GateMode) (b : GateBehaviour)
    (p : PeerId) : Except DenyCause Unit :=
  enforce m b.peers p

/-- Result of `Behaviour::poll`: either `ToSwarm::CloseConnection` for a peer
(with `CloseConnection::All`), or `Poll::Pending`. -/
inductive GatePoll where
  | closeConnection (peer : PeerId)
  | pending
deriving DecidableEq

/-- `Behaviour::poll`: pop the oldest close order if any; otherwise store the
waker (`w` is the waker supplied by the polling context) and return pending. -/
def GateBehaviour.poll (b : GateBehaviour) (w : Nat) : GatePoll × GateBehaviour :=
  match b.closeConnections with
  | p :: rest => (.closeConnection p, { b with closeConnections := rest })
  | [] => (.pending, { b with waker := some w })

/-! ### Query statistics (`protocols/kad/src/query.rs`, `QueryStats`) -/

/-- Minimum of two optional instants, present ones preferred: Rust
`match (a, b) with (Some x, Some y) => Some(min x y), (a, b) => a.or(b)`. -/
def optMin : Option Nat → Option Nat → Option Nat
  | some a, some b => some (min a b)
  | a, b => a.or b

/-- Rust `std::cmp::max` on `Option<Instant>`: `None` is smaller than any
`Some`, and `Some`s compare by the inner instant. -/
def optMax : Option Nat → Option Nat → Option Nat
  | none, b => b
  | a, none => a
  | some a, some b => some (max a b)

/-- `QueryStats`: requests issued, successes, failures, and the optional start
and end instants.  The Rust field `end` is named `stop` here because `end` is a
Lean keyword. -/
structure QueryStats where
  requests : Nat
  success : Nat
  failure : Nat
  start : Option Nat
  stop : Option Nat
deriving DecidableEq

/-- `QueryStats::empty`. -/
def QueryStats.empty : QueryStats := ⟨0, 0, 0, none, none⟩

/-- `QueryStats::merge`: counters add, `start` is the minimum of the present
start instants, `end` is the maximum of the end instants. -/
def QueryStats.merge (a b : QueryStats) : QueryStats :=
  ⟨a.requests + b.requests, a.success + b.success, a.failure + b.failure,
   optMin a.start b.start, optMax a.stop b.stop⟩

/-! ### Query pool (`protocols/kad/src/query.rs`, `QueryPool::poll`) -/

/-- `PeersIterState`, the observable states of a peer iterator `next` call. -/
inductive IterState where
  | waiting (peer : Option PeerId)
  | waitingAtCapacity
  | finished
deriving DecidableEq

/-- A query as seen by `QueryPool::poll`: its `stats.start`, `stats.end`
(named `stop`), `stats.requests`, and its peer iterator.  The iterator is
abstracted as a pure oracle `step : Instant → PeersIterState` because `poll`
calls `Query::next` at most once per query per poll; the internal iterator
state transition is irrelevant to a single poll and is not modelled here
(the fixed-peer iterator is modelled separately below). -/
structure PoolQuery where
  start : Option Nat
  stop : Option Nat
  requests : Nat
  step : Nat → IterState

/-- The query pool: the configured timeout and the map from `QueryId` to
query, modelled as an association list scanned in list order (the Rust
`FnvHashMap` iteration order is unspecified). -/
structure QueryPool where
  timeout : Nat
  queries : List (Nat × PoolQuery)

/-- The effect found by the scan inside `QueryPool::poll`, carrying the
already-updated query for the `Finished` and timed-out cases. -/
inductive ScanEffect where
  | waitingPeer (qid : Nat) (peer : PeerId)
  | finishedQ (qid : Nat) (q : PoolQuery)
  | timedOut (qid : Nat) (q : PoolQuery)

/-- The scan loop of `QueryPool::poll`: for each query set
`stats.start = stats.start.or(now)`, call `next(now)` (which bumps
`stats.requests` when it yields `Waiting(Some(peer))`), and stop at the first
effect: `Finished`, `Waiting(Some(peer))`, or a pool-level timeout when the
iterator yields `Waiting(None)` or `WaitingAtCapacity` and
`now - stats.start >= timeout`.  Returns the updated query list and the
effect, if any. -/
def pollScan (timeout now : Nat) :
    List (Nat × PoolQuery) → List (Nat × PoolQuery) × Option ScanEffect
  | [] => ([], none)
  | (qid, q) :: rest =>
    let q2 : PoolQuery := { q with start := q.start.or (some now) }
    match q2.step now with
    | .finished => ((qid, q2) :: rest, some (.finishedQ qid q2))
    | .waiting (some pid) =>
      ((qid, { q2 with requests := q2.requests + 1 }) :: rest,
       some (.waitingPeer qid pid))
    | .waiting none =>
      if timeout ≤ now - (q2.start.getD now) then
        ((qid, q2) :: rest, some (.timedOut qid q2))
      else
        let r := pollScan timeout now rest
        ((qid, q2) :: r.1, r.2)
    | .waitingAtCapacity =>
      if timeout ≤ now - (q2.start.getD now) then
        ((qid, q2) :: rest, some (.timedOut qid q2))
      else
        let r := pollScan timeout now rest
        ((qid, q2) :: r.1, r.2)

/-- `QueryPoolState`, the observable result of `QueryPool::poll`.  The
`Finished` and `Timeout` variants carry the removed query (with `stats.end`
set); `Waiting(Some(...))` carries the query id and the peer to contact. -/
inductive PollState where
  | idle
  | waitingSome (qid : Nat) (peer : PeerId)
  | waitingNone
  | finishedQ (qid : Nat) (q : PoolQuery)
  | timeoutQ (qid : Nat) (q : PoolQuery)

/-- Remove the query with the given id from the pool map. -/
def removeQ (qid : Nat) (l : List (Nat × PoolQuery)) : List (Nat × PoolQuery) :=
  l.filter (fun e => decide (e.1 ≠ qid))

/-- `QueryPool::poll(now)`: run the scan; on `Finished` or timeout remove the
query from the map and set `stats.end = now`; with no effect return `Idle`
when the map is empty and `Waiting(None)` otherwise. -/
def QueryPool.poll (p : QueryPool) (now : Nat) : PollState × QueryPool :=
  let r := pollScan p.timeout now p.queries
  match r.2 with
  | some (.waitingPeer qid pid) => (.waitingSome qid pid, { p with queries := r.1 })
  | some (.finishedQ qid q) =>
    (.finishedQ qid { q with stop := some now }, { p with queries := removeQ qid r.1 })
  | some (.timedOut qid q) =>
    (.timeoutQ qid { q with stop := some now }, { p with queries := removeQ qid r.1 })
  | none =>
    if r.1.isEmpty then (.idle, { p with queries := r.1 })
    else (.waitingNone, { p with queries := r.1 })

/-! ### Fixed-peer iterator and `QueryPool::continue_fixed`

The file `protocols/kad/src/query/peers/fixed.rs` is not among the sources;
the iterator itself is modelled from the spec.  The construction in
`QueryPool::continue_fixed` (which parameters it passes) is modelled from
`protocols/kad/src/query.rs`. -/

/-- The per-peer state of the fixed-peer iterator: `NotContacted`, `Waiting`,
`Succeeded`, `Failed`. -/
inductive FixedPeerState where
  | notContacted
  | waiting
  | succeeded
  | failed
deriving DecidableEq

/-- Modelled from the spec: the fixed-peer iterator state (§4.3): a
pre-declared set of peers (a map peer → state, modelled as a key-unique
association list), the concurrency bound it was constructed with, and whether
`finish()` was called. -/
structure FixedPeersIter where
  parallelism : Nat
  peers : List (PeerId × FixedPeerState)
  finishedFlag : Bool
deriving DecidableEq

/-- Replace the state of the first entry with the given key (model of a
hash-map entry update; keys are unique in any reachable iterator). -/
def setPeerState : List (PeerId × FixedPeerState) → PeerId → FixedPeerState →
    List (PeerId × FixedPeerState)
  | [], _, _ => []
  | e :: rest, k, st =>
    if e.1 = k then (k, st) :: rest else e :: setPeerState rest k st

/-- Modelled from the spec: construct the iterator with every pre-declared
peer `NotContacted` (duplicates collapse, as in a hash map). -/
def FixedPeersIter.new (peers : List PeerId) (parallelism : Nat) : FixedPeersIter :=
  ⟨parallelism,
   peers.foldl (fun acc p =>
     if acc.any (fun e => decide (e.1 = p)) then acc else acc ++ [(p, .notContacted)]) [],
   false⟩

/-- Number of peers currently in the `Waiting` state. -/
def FixedPeersIter.waitingCount (it : FixedPeersIter) : Nat :=
  (it.peers.filter (fun e => decide (e.2 = FixedPeerState.waiting))).length

/-- Modelled from the spec: `next` dispatches the first `NotContacted` peer
while fewer than `parallelism` peers are `Waiting`; with `parallelism` peers
in flight it reports `WaitingAtCapacity`; with no `NotContacted` peer left it
is finished once no peer is `Waiting`. -/
def FixedPeersIter.next (it : FixedPeersIter) : IterState × FixedPeersIter :=
  if it.finishedFlag then (.finished, it)
  else if it.parallelism ≤ it.waitingCount then (.waitingAtCapacity, it)
  else
    match it.peers.find? (fun e => decide (e.2 = FixedPeerState.notContacted)) with
    | some e => (.waiting (some e.1), { it with peers := setPeerState it.peers e.1 .waiting })
    | none =>
      if it.waitingCount = 0 then (.finished, { it with finishedFlag := true })
      else (.waiting none, it)

/-- Modelled from the spec: `on_success` records a success for a peer that is
currently `Waiting`; no new peers are learned. -/
def FixedPeersIter.onSuccess (it : FixedPeersIter) (p : PeerId) : FixedPeersIter :=
  match alookup p it.peers with
  | some .waiting => { it with peers := setPeerState it.peers p .succeeded }
  | _ => it

/-- Modelled from the spec: `on_failure` records a failure for a peer that is
currently `Waiting`. -/
def FixedPeersIter.onFailure (it : FixedPeersIter) (p : PeerId) : FixedPeersIter :=
  match alookup p it.peers with
  | some .waiting => { it with peers := setPeerState it.peers p .failed }
  | _ => it

/-- Modelled from the spec: `finish` forces the terminal state. -/
def FixedPeersIter.finish (it : FixedPeersIter) : FixedPeersIter :=
  { it with finishedFlag := true }

/-- The operations the host may invoke on a fixed-peer iterator. -/
inductive FixedOp where
  | nextOp
  | succOp (p : PeerId)
  | failOp (p : PeerId)
  | finishOp

/-- Apply one operation to a fixed-peer iterator. -/
def applyFixedOp (it : FixedPeersIter) : FixedOp → FixedPeersIter
  | .nextOp => (it.next).2
  | .succOp p => it.onSuccess p
  | .failOp p => it.onFailure p
  | .finishOp => it.finish

/-- Run a sequence of operations on a fixed-peer iterator. -/
def runFixed (it : FixedPeersIter) (ops : List FixedOp) : FixedPeersIter :=
  ops.foldl applyFixedOp it

/-- `QueryConfig`: timeout (default 60 s), replication factor `k` (default
20), parallelism `α` (default 3), disjoint query paths (default false). -/
structure QueryConfig where
  timeout : Nat
  replicationFactor : Nat
  parallelism : Nat
  disjointQueryPaths : Bool
deriving DecidableEq

/-- `QueryConfig::default`. -/
def QueryConfig.default : QueryConfig := ⟨60, 20, 3, false⟩

/-- The iterator constructed by `QueryPool::continue_fixed` (and hence
`add_fixed`): per `query.rs`, `let parallelism = self.config.replication_factor;`
and `FixedPeersIter::new(peers, parallelism)`. -/
def mkFixedQueryIter (cfg : QueryConfig) (peers : List PeerId) : FixedPeersIter :=
  FixedPeersIter.new peers cfg.replicationFactor

/-! ### Rendezvous registration store (`protocols/rendezvous/src/server.rs`)

The codec types (`Namespace`, `Cookie`, `NewRegistration`, `Registration`) live
in `protocols/rendezvous/src/codec.rs`, which is not among the sources; their
data content is modelled from the spec (§3): a namespace is a short string
partitioning the directory (modelled as `Nat`), a peer record carries the
originating `PeerId` and addresses, a cookie binds to a specific namespace or
to all namespaces and is freshly drawn for every discovery response. -/

/-- A namespace; opaque with decidable equality. -/
abbrev RNamespace := Nat

/-- TTL in seconds. -/
abbrev Ttl := Nat

/-- Modelled from the spec: a signed peer record, carrying the originating
`PeerId` and reachable addresses (collapsed into one opaque `addr` payload so
that distinct records are distinguishable). -/
structure PeerRecord where
  peer : PeerId
  addr : Nat
deriving DecidableEq

/-- Modelled from the spec: the default TTL applied when a `REGISTER` request
carries no TTL (the concrete value is irrelevant to every claim). -/
def DEFAULT_TTL : Ttl := 7200

/-- Modelled from the spec: a `NewRegistration` request: namespace, record and
optional requested TTL.  The Rust field `namespace` is called `ns` here
because `namespace` is a Lean keyword. -/
structure NewRegistration where
  ns : RNamespace
  record : PeerRecord
  ttl : Option Ttl
deriving DecidableEq

/-- Modelled from the spec: `NewRegistration::effective_ttl` — the requested
TTL, or the configured default when absent. -/
def NewRegistration.effectiveTtl (r : NewRegistration) : Ttl :=
  r.ttl.getD DEFAULT_TTL

/-- A stored `Registration`: namespace, record and effective TTL. -/
structure Registration where
  ns : RNamespace
  record : PeerRecord
  ttl : Ttl
deriving DecidableEq

/-- Modelled from the spec: a `Cookie` binds to a specific namespace
(`for_namespace`) or all namespaces (`for_all_namespaces`), and carries a
randomly drawn identifier, modelled by a freshness counter. -/
structure Cookie where
  id : Nat
  ns : Option RNamespace
deriving DecidableEq

/-- `TtlOutOfRange`: the requested TTL was above the maximum or below the
minimum; both variants carry the violated bound and the requested TTL. -/
inductive TtlOutOfRange where
  | tooLong (bound requested : Ttl)
  | tooShort (bound requested : Ttl)
deriving DecidableEq

/-- `CookieNamespaceMismatch`: the provided cookie is not valid for a DISCOVER
request for the given namespace. -/
inductive CookieNamespaceMismatch where
  | mk
deriving DecidableEq

/-- `Registrations`: the primary map `RegistrationId → Registration`, the
bidirectional index `(PeerId, Namespace) ↔ RegistrationId`, the pagination
map `Cookie → set of delivered RegistrationId`, the TTL bounds, and the
pending expiry timers (duration, registration id).  `RegistrationId::new`
draws a random `u64`; freshness of the drawn ids is modelled by the counter
`nextRegId`, and freshness of cookie ids by `nextCookieId`. -/
structure Registrations where
  regsForPeer : List ((PeerId × RNamespace) × Nat)
  registrations : List (Nat × Registration)
  cookies : List (Cookie × List Nat)
  minTtl : Ttl
  maxTtl : Ttl
  timers : List (Ttl × Nat)
  nextRegId : Nat
  nextCookieId : Nat
deriving DecidableEq

/-- `Registrations::with_config`. -/
def Registrations.withConfig (minT maxT : Ttl) : Registrations :=
  ⟨[], [], [], minT, maxT, [], 0, 0⟩

/-- `BiMap::insert`: an overwriting insert that removes any pair colliding in
either component before adding the new pair. -/
def bimapInsert (l : PeerId × RNamespace) (r : Nat)
    (m : List ((PeerId × RNamespace) × Nat)) : List ((PeerId × RNamespace) × Nat) :=
  (m.filter (fun e => decide (¬(e.1 = l ∨ e.2 = r)))) ++ [(l, r)]

/-- `Registrations::add`: reject with `TooLong` when the effective TTL exceeds
`max_ttl`, with `TooShort` when it is below `min_ttl`; otherwise drop any prior
registration for the same `(peer, namespace)` pair, insert the new one under a
fresh id, and schedule an expiry timer for the TTL. -/
def Registrations.add (s : Registrations) (nr : NewRegistration) :
    Except TtlOutOfRange Registration × Registrations :=
  let ttl := nr.effectiveTtl
  if s.maxTtl < ttl then (.error (.tooLong s.maxTtl ttl), s)
  else if ttl < s.minTtl then (.error (.tooShort s.minTtl ttl), s)
  else
    let rid := s.nextRegId
    let key := (nr.record.peer, nr.ns)
    let regs1 :=
      match alookup key s.regsForPeer with
      | some old => mapRemove old s.registrations
      | none => s.registrations
    let reg : Registration := ⟨nr.ns, nr.record, ttl⟩
    (.ok reg,
     { s with regsForPeer := bimapInsert key rid s.regsForPeer,
              registrations := mapInsert rid reg regs1,
              timers := s.timers ++ [(ttl, rid)],
              nextRegId := rid + 1 })

/-- `Registrations::remove`: idempotent removal of the registration for
`(peer, namespace)` from the bidirectional index and the primary map. -/
def Registrations.remove (s : Registrations) (n : RNamespace) (p : PeerId) :
    Registrations :=
  match alookup (p, n) s.regsForPeer with
  | some rid =>
    { s with regsForPeer := s.regsForPeer.filter (fun e => decide (e.1 ≠ (p, n))),
             registrations := mapRemove rid s.registrations }
  | none => s

/-- Cookie validation in `Registrations::get`: a cookie bound to a namespace is
invalid for an all-namespaces query and for a query for a different
namespace; every other combination is fine. -/
def cookieValid : Option RNamespace → Option RNamespace → Bool
  | none, some _ => false
  | some n, some cn => decide (n = cn)
  | _, _ => true

/-- The filter closure inside `Registrations::get`: skip ids already delivered
under the cookie; keep ids matching the discover namespace (all ids when
discovering all namespaces). -/
def regMatches (discoverNs : Option RNamespace) (delivered : List Nat)
    (e : (PeerId × RNamespace) × Nat) : Bool :=
  if delivered.contains e.2 then false
  else
    match discoverNs with
    | some dn => decide (e.1.2 = dn)
    | none => true

/-- `limit.unwrap_or(u64::MAX)` followed by `take`: taking `u64::MAX` elements
of any realisable list is the identity, so no limit means no truncation. -/
def takeLimit (limit : Option Nat) (l : List Nat) : List Nat :=
  match limit with
  | some k => l.take k
  | none => l

/-- `Registrations::get`: validate the cookie against the discover namespace;
load the delivered set of the supplied cookie (empty when the cookie is absent
or unknown); collect up to `limit` not-yet-delivered matching registration
ids; store the extended delivered set under a fresh cookie bound to the
query's namespace; return the ids, their registrations and the new cookie. -/
def Registrations.get (s : Registrations) (discoverNs : Option RNamespace)
    (cookie : Option Cookie) (limit : Option Nat) :
    Except CookieNamespaceMismatch (List Nat × List Registration × Cookie) ×
      Registrations :=
  if cookieValid discoverNs (cookie.bind Cookie.ns) then
    let delivered := (cookie.bind (fun c => alookup c s.cookies)).getD []
    let ids := takeLimit limit
      ((s.regsForPeer.filter (regMatches discoverNs delivered)).map (fun e => e.2))
    let newCookie : Cookie := ⟨s.nextCookieId, discoverNs⟩
    let registrationsOut := ids.filterMap (fun i => alookup i s.registrations)
    (.ok (ids, registrationsOut, newCookie),
     { s with cookies := mapInsert newCookie (delivered ++ ids) s.cookies,
              nextCookieId := s.nextCookieId + 1 })
  else (.error .mk, s)

/-- The `cookies.retain` step of the expiry loop: remove the expired id from
every cookie set and retain only cookies whose set stays non-empty. -/
def shrinkCookies (cookies : List (Cookie × List Nat)) (rid : Nat) :
    List (Cookie × List Nat) :=
  (cookies.map (fun e => (e.1, e.2.filter (fun x => decide (x ≠ rid))))).filter
    (fun e => decide (e.2 ≠ []))

/-- The body of the expiry loop in `Registrations::poll` for one fired timer:
remove the expired id from every cookie set (retaining only cookies whose set
stays non-empty), remove it from the bidirectional index, and remove it from
the primary map; the removed registration, if the id was still present, is
the `Expired` event. -/
def Registrations.processExpired (s : Registrations) (rid : Nat) :
    Option Registration × Registrations :=
  let cookies2 := shrinkCookies s.cookies rid
  let bimap2 := s.regsForPeer.filter (fun e => decide (e.2 ≠ rid))
  match alookup rid s.registrations with
  | none => (none, { s with cookies := cookies2, regsForPeer := bimap2 })
  | some reg =>
    (some reg,
     { s with cookies := cookies2, regsForPeer := bimap2,
              registrations := mapRemove rid s.registrations })

/-- The expiry loop of `Registrations::poll` over the ids whose timers fired,
in firing order: process each fired id; if its registration was still
present, return `Expired(registration)`; if it was already unregistered or
replaced, skip and continue polling. -/
def Registrations.pollFired (s : Registrations) :
    List Nat → Option Registration × Registrations
  | [] => (none, s)
  | rid :: rest =>
    match s.processExpired rid with
    | (some reg, s2) => (some reg, s2)
    | (none, s2) => s2.pollFired rest

/-- Fold the expiry processing over a list of fired ids (the accumulated
effect of expiry handling across as many `poll` calls as needed). -/
def expireAll (s : Registrations) (rids : List Nat) : Registrations :=
  rids.foldl (fun st r => (st.processExpired r).2) s

/-! ### Sequences of store operations (for the uniqueness and cookie-chain
invariants) -/

/-- Apply a whole list of `add` calls, left to right. -/
def addAll (s : Registrations) (rs : List NewRegistration) : Registrations :=
  rs.foldl (fun acc r => (acc.add r).2) s

/-- The last `add` in a sequence whose registration is for `(p, n)`. -/
def lastAddFor (rs : List NewRegistration) (p : PeerId) (n : RNamespace) :
    Option NewRegistration :=
  (rs.filter (fun r => decide (r.record.peer = p ∧ r.ns = n))).getLast?

/-- The current registration stored for a `(peer, namespace)` pair: follow the
bidirectional index into the primary map. -/
def storedFor (s : Registrations) (p : PeerId) (n : RNamespace) : Option Registration :=
  (alookup (p, n) s.regsForPeer).bind (fun rid => alookup rid s.registrations)

/-- An operation interleaved into a cookie chain: an `add`, a `remove`, or a
`get` (discover) that passes the chain's current cookie. -/
inductive StoreOp where
  | addOp (nr : NewRegistration)
  | removeOp (n : RNamespace) (p : PeerId)
  | discoverOp (n : Option RNamespace) (limit : Option Nat)

/-- The running state of a cookie chain: the store, the cookie returned by the
most recent successful `get` (none before the first), and the id lists
returned by the successful `get` calls so far. -/
structure ChainState where
  store : Registrations
  cookie : Option Cookie
  delivered : List (List Nat)

/-- Execute one chain operation: `add` and `remove` touch only the store; a
`discover` passes the chain's current cookie to `get`, and on success appends
the returned ids and adopts the returned cookie. -/
def stepOp (cs : ChainState) : StoreOp → ChainState
  | .addOp nr => { cs with store := (cs.store.add nr).2 }
  | .removeOp n p => { cs with store := cs.store.remove n p }
  | .discoverOp n lim =>
    match cs.store.get n cs.cookie lim with
    | (.ok r, s2) =>
      { store := s2, cookie := some r.2.2, delivered := cs.delivered ++ [r.1] }
    | (.error _, s2) => { cs with store := s2 }

/-- Run a cookie chain from a fresh store: the first `get` passes no cookie,
every later `get` passes the cookie returned by the previous successful one. -/
def runChain (minT maxT : Ttl) (ops : List StoreOp) : ChainState :=
  ops.foldl stepOp ⟨Registrations.withConfig minT maxT, none, []⟩

/-- Two id lists with no common element. -/
def DisjointLists (A B : List Nat) : Prop := ∀ x ∈ A, x ∉ B

/-- Invariant of a running cookie chain: before the first successful `get`
nothing has been delivered; afterwards the chain's current cookie is present
in the store and its delivered set covers every id list returned so far; and
the returned id lists are pairwise disjoint. -/
def chainInv (cs : ChainState) : Prop :=
  (cs.cookie = none → cs.delivered = []) ∧
  (∀ c, cs.cookie = some c → ∃ D, alookup c cs.store.cookies = some D ∧
    ∀ A ∈ cs.delivered, ∀ x ∈ A, x ∈ D) ∧
  List.Pairwise DisjointLists cs.delivered

/-- Representation invariant of the registration store, as maintained by the
Rust data structures: the bidirectional `(peer, namespace) ↔ RegistrationId`
map is injective in both directions, the primary map has unique keys, the two
maps are mutually consistent (every indexed id has a stored registration with
the matching peer and namespace, and conversely), and every stored id is
below the freshness counter (every drawn id is fresh). -/
structure WfR (s : Registrations) : Prop where
  pairsNodup : (s.regsForPeer.map (fun e => e.1)).Nodup
  idsNodup : (s.regsForPeer.map (fun e => e.2)).Nodup
  regKeysNodup : (s.registrations.map (fun e => e.1)).Nodup
  toReg : ∀ e ∈ s.regsForPeer, ∃ reg, alookup e.2 s.registrations = some reg ∧
    reg.record.peer = e.1.1 ∧ reg.ns = e.1.2
  toBimap : ∀ e ∈ s.registrations, ((e.2.record.peer, e.2.ns), e.1) ∈ s.regsForPeer
  bimapFresh : ∀ e ∈ s.regsForPeer, e.2 < s.nextRegId
  regFresh : ∀ e ∈ s.registrations, e.1 < s.nextRegId

/-! ## Theorems -/

/-! ### Association list lemmas -/

theorem alookup_cons {α β : Type} [DecidableEq α] (k : α) (e : α × β) (l : List (α × β)) :
    alookup k (e :: l) = if e.1 = k then some e.2 else alookup k l := by
  by_cases h : e.1 = k <;> simp [alookup, List.find?_cons, h]

theorem alookup_eq_none {α β : Type} [DecidableEq α] {k : α} {l : List (α × β)} :
    alookup k l = none ↔ ∀ e ∈ l, e.1 ≠ k := by
  simp [alookup, List.find?_eq_none]

theorem mem_of_alookup {α β : Type} [DecidableEq α] {k : α} {v : β} {l : List (α × β)}
    (h : alookup k l = some v) : (k, v) ∈ l := by
  unfold alookup at h
  obtain ⟨e, he, he2⟩ := Option.map_eq_some'.mp h
  have hk := List.find?_some he
  have hm := List.mem_of_find?_eq_some he
  have : e.1 = k := by simpa using hk
  obtain ⟨e1, e2⟩ := e
  simp only at he2 this
  subst this he2
  exact hm

theorem alookup_filter_keep {α β : Type} [DecidableEq α] {k : α} {p : α × β → Bool}
    {l : List (α × β)} (h : ∀ e ∈ l, e.1 = k → p e = true) :
    alookup k (l.filter p) = alookup k l := by
  induction l with
  | nil => rfl
  | cons e t ih =>
    by_cases hk : e.1 = k
    · have hp : p e = true := h e (by simp) hk
      simp [List.filter_cons, hp, alookup_cons, hk]
    · have ht : alookup k (t.filter p) = alookup k t :=
        ih (fun e2 h2 => h e2 (by simp [h2]))
      by_cases hp : p e = true
      · simp [List.filter_cons, hp, alookup_cons, hk, ht]
      · simp only [Bool.not_eq_true] at hp
        simp [List.filter_cons, hp, alookup_cons, hk, ht]

theorem alookup_filter_drop {α β : Type} [DecidableEq α] {k : α} {p : α × β → Bool}
    {l : List (α × β)} (h : ∀ e ∈ l, e.1 = k → p e = false) :
    alookup k (l.filter p) = none := by
  rw [alookup_eq_none]
  intro e he hk
  have h1 := (List.mem_filter.mp he).1
  have h2 := (List.mem_filter.mp he).2
  rw [h e h1 hk] at h2
  exact Bool.false_ne_true h2

theorem alookup_append {α β : Type} [DecidableEq α] (k : α) (l1 l2 : List (α × β)) :
    alookup k (l1 ++ l2) = (alookup k l1).or (alookup k l2) := by
  induction l1 with
  | nil => simp [alookup]
  | cons e t ih =>
    by_cases h : e.1 = k <;> simp [List.cons_append, alookup_cons, h, ih]

theorem alookup_mapInsert_self {α β : Type} [DecidableEq α] (k : α) (v : β)
    (l : List (α × β)) : alookup k (mapInsert k v l) = some v := by
  unfold mapInsert
  rw [alookup_append, alookup_filter_drop (p := fun e => decide (e.1 ≠ k))]
  · simp [alookup_cons]
  · intro e _ hk
    simp [hk]

theorem alookup_mapInsert_ne {α β : Type} [DecidableEq α] {k k2 : α} (v : β)
    (l : List (α × β)) (h : k ≠ k2) : alookup k (mapInsert k2 v l) = alookup k l := by
  unfold mapInsert
  rw [alookup_append, alookup_filter_keep (p := fun e => decide (e.1 ≠ k2))]
  · have : alookup k ([(k2, v)] : List (α × β)) = none := by
      rw [alookup_cons]
      simp only [if_neg (fun hh : (k2, v).1 = k => h hh.symm)]
      rfl
    cases hh : alookup k l <;> simp [this, hh]
  · intro e _ hk
    subst hk
    simp [h]

theorem alookup_mapRemove_self {α β : Type} [DecidableEq α] (k : α) (l : List (α × β)) :
    alookup k (mapRemove k l) = none := by
  unfold mapRemove
  apply alookup_filter_drop
  intro e _ hk
  simp [hk]

theorem alookup_mapRemove_ne {α β : Type} [DecidableEq α] {k k2 : α} (l : List (α × β))
    (h : k ≠ k2) : alookup k (mapRemove k2 l) = alookup k l := by
  unfold mapRemove
  apply alookup_filter_keep
  intro e _ hk
  subst hk
  simp [fun hh : e.1 = k2 => h hh]

/-- A duplicate-free list in which all elements are pairwise equal has at most
one element. -/
theorem length_le_one_of_nodup_allEq {α : Type} {l : List α} (hd : l.Nodup)
    (h : ∀ a ∈ l, ∀ b ∈ l, a = b) : l.length ≤ 1 := by
  match l with
  | [] => simp
  | [a] => simp
  | a :: b :: t =>
    exfalso
    have hab : a = b := h a (by simp) b (by simp)
    rw [List.nodup_cons] at hd
    exact hd.1 (by simp [hab])

/-! ### C10 helper lemmas -/

theorem optMin_comm (a b : Option Nat) : optMin a b = optMin b a := by
  cases a <;> cases b <;> simp [optMin, Option.or, Nat.min_comm]

theorem optMax_comm (a b : Option Nat) : optMax a b = optMax b a := by
  cases a <;> cases b <;> simp [optMax, Nat.max_comm]

theorem optMin_none_right (a : Option Nat) : optMin a none = a := by
  cases a <;> rfl

theorem optMin_none_left (a : Option Nat) : optMin none a = a := by
  cases a <;> rfl

theorem optMax_none_right (a : Option Nat) : optMax a none = a := by
  cases a <;> rfl

/-- C10 — QueryStats merge algebra: `merge` is commutative and
`QueryStats::empty` is a two-sided identity; counters add, `start` is the
minimum of the present start instants, `end` the maximum of the end
instants. -/
theorem querystats_merge_algebra (a b : QueryStats) :
    a.merge b = b.merge a ∧
    a.merge QueryStats.empty = a ∧
    QueryStats.empty.merge a = a ∧
    (a.merge b).requests = a.requests + b.requests ∧
    (a.merge b).success = a.success + b.success ∧
    (a.merge b).failure = a.failure + b.failure ∧
    (a.merge b).start = optMin a.start b.start ∧
    (a.merge b).stop = optMax a.stop b.stop := by
  obtain ⟨ar, asu, af, ast, ae⟩ := a
  obtain ⟨br, bsu, bf, bst, be⟩ := b
  refine ⟨?_, ?_, ?_, rfl, rfl, rfl, rfl, rfl⟩
  · simp [QueryStats.merge, Nat.add_comm, optMin_comm, optMax_comm]
  · simp [QueryStats.merge, QueryStats.empty, optMin_none_right, optMax_none_right]
  · simp [QueryStats.merge, QueryStats.empty, optMin_none_left, optMax]

/-- C2 — Admission check semantics: in allow-mode each of the three admission
handlers denies with `NotAllowed` exactly when the peer is not in the allowed
set and permits otherwise; in block-mode each denies with `Blocked` exactly
when the peer is in the blocked set; the outbound-pending check permits
unconditionally when the peer identity is not yet known. -/
theorem gate_admission_check_semantics (b : GateBehaviour) (p : PeerId) :
    (b.handleEstablishedInbound .allowMode p = .error (.notAllowed p) ↔ p ∉ b.peers) ∧
    (b.handleEstablishedInbound .allowMode p = .ok () ↔ p ∈ b.peers) ∧
    (b.handleEstablishedOutbound .allowMode p = .error (.notAllowed p) ↔ p ∉ b.peers) ∧
    (b.handleEstablishedOutbound .allowMode p = .ok () ↔ p ∈ b.peers) ∧
    (b.handlePendingOutbound .allowMode (some p) = .error (.notAllowed p) ↔ p ∉ b.peers) ∧
    (b.handlePendingOutbound .allowMode (some p) = .ok [] ↔ p ∈ b.peers) ∧
    b.handlePendingOutbound .allowMode none = .ok [] ∧
    (b.handleEstablishedInbound .blockMode p = .error (.blocked p) ↔ p ∈ b.peers) ∧
    (b.handleEstablishedInbound .blockMode p = .ok () ↔ p ∉ b.peers) ∧
    (b.handleEstablishedOutbound .blockMode p = .error (.blocked p) ↔ p ∈ b.peers) ∧
    (b.handleEstablishedOutbound .blockMode p = .ok () ↔ p ∉ b.peers) ∧
    (b.handlePendingOutbound .blockMode (some p) = .error (.blocked p) ↔ p ∈ b.peers) ∧
    (b.handlePendingOutbound .blockMode (some p) = .ok [] ↔ p ∉ b.peers) ∧
    b.handlePendingOutbound .blockMode none = .ok [] := by
  by_cases hm : p ∈ b.peers <;>
    simp [GateBehaviour.handleEstablishedInbound, GateBehaviour.handleEstablishedOutbound,
      GateBehaviour.handlePendingOutbound, enforce, hm, List.elem_iff]

/-- C9 — Admission-gate mutators and close pipeline: `allow_peer`/`block_peer`
return true exactly when the peer is newly inserted, `disallow_peer`/
`unblock_peer` exactly when it was present (false always means no state
change); a close order is appended exactly when `disallow_peer` or
`block_peer` return true; `poll` emits the oldest pending close order, one
per call, and returns pending (storing the waker) when the queue is empty. -/
theorem gate_mutators_poll_spec (b : GateBehaviour) (p : PeerId) :
    ((b.allowPeer p).1 = true ↔ p ∉ b.peers) ∧
    ((b.allowPeer p).1 = false → (b.allowPeer p).2 = b) ∧
    (b.allowPeer p).2.closeConnections = b.closeConnections ∧
    ((b.disallowPeer p).1 = true ↔ p ∈ b.peers) ∧
    ((b.disallowPeer p).1 = false → (b.disallowPeer p).2 = b) ∧
    ((b.disallowPeer p).1 = true →
      (b.disallowPeer p).2.closeConnections = b.closeConnections ++ [p]) ∧
    ((b.blockPeer p).1 = true ↔ p ∉ b.peers) ∧
    ((b.blockPeer p).1 = false → (b.blockPeer p).2 = b) ∧
    ((b.blockPeer p).1 = true →
      (b.blockPeer p).2.closeConnections = b.closeConnections ++ [p]) ∧
    ((b.unblockPeer p).1 = true ↔ p ∈ b.peers) ∧
    ((b.unblockPeer p).1 = false → (b.unblockPeer p).2 = b) ∧
    (b.unblockPeer p).2.closeConnections = b.closeConnections ∧
    (∀ w q rest, b.closeConnections = q :: rest →
      b.poll w = (.closeConnection q, { b with closeConnections := rest })) ∧
    (∀ w, b.closeConnections = [] →
      b.poll w = (.pending, { b with waker := some w })) := by
  refine ⟨?_, ?_, ?_, ?_, ?_, ?_, ?_, ?_, ?_, ?_, ?_, ?_, ?_, ?_⟩ <;>
    first
    | (intro w q rest h; simp [GateBehaviour.poll, h])
    | (intro w h; simp [GateBehaviour.poll, h])
    | (by_cases hm : p ∈ b.peers <;>
        simp [GateBehaviour.allowPeer, GateBehaviour.disallowPeer,
          GateBehaviour.blockPeer, GateBehaviour.unblockPeer, hm, List.elem_iff])

/-- C9 witness: the conditional conjuncts of `gate_mutators_poll_spec`
evaluated at a concrete gate state. -/
theorem gate_mutators_poll_spec_witness :
    ((⟨[1], [5], none⟩ : GateBehaviour).blockPeer 2).2.closeConnections = [5, 2] ∧
    (⟨[1], [5], none⟩ : GateBehaviour).poll 9 =
      (.closeConnection 5, ⟨[1], [], none⟩) := by
  refine ⟨?_, ?_⟩
  · exact (gate_mutators_poll_spec ⟨[1], [5], none⟩ 2).2.2.2.2.2.2.2.2.1 (by decide)
  · exact (gate_mutators_poll_spec ⟨[1], [5], none⟩ 2).2.2.2.2.2.2.2.2.2.2.2.2.1 9 5 [] rfl

/-! ### C4 — TTL range rejection -/

/-- C4 (amended) — `Registrations::add` returns `TooLong` exactly when the
effective TTL exceeds `max_ttl`; it returns `TooShort` exactly when the
effective TTL is within `max_ttl` but below `min_ttl` (the `TooLong` check
runs first, so with an inverted configuration `min_ttl > max_ttl` a TTL that
is both too long and too short reports `TooLong`); in either error case the
whole store is left unchanged; otherwise it returns `Ok` with a registration
carrying the effective TTL. -/
theorem rendezvous_ttl_range_amended (s : Registrations) (nr : NewRegistration) :
    ((s.add nr).1 = .error (.tooLong s.maxTtl nr.effectiveTtl) ↔
      s.maxTtl < nr.effectiveTtl) ∧
    ((s.add nr).1 = .error (.tooShort s.minTtl nr.effectiveTtl) ↔
      (nr.effectiveTtl ≤ s.maxTtl ∧ nr.effectiveTtl < s.minTtl)) ∧
    (∀ e, (s.add nr).1 = .error e → (s.add nr).2 = s) ∧
    (s.minTtl ≤ nr.effectiveTtl → nr.effectiveTtl ≤ s.maxTtl →
      (s.add nr).1 = .ok ⟨nr.ns, nr.record, nr.effectiveTtl⟩) := by
  by_cases h1 : s.maxTtl < nr.effectiveTtl
  · simp [Registrations.add, h1, Nat.le_of_lt h1, Nat.not_le.mpr h1]
  · by_cases h2 : nr.effectiveTtl < s.minTtl
    · simp [Registrations.add, h1, h2, Nat.not_lt.mp h1, Nat.not_le.mpr h2]
    · simp [Registrations.add, h1, h2, Nat.not_lt.mp h1]

/-- C4 counterexample — the claim asserts `TooShort` is returned whenever the
effective TTL is below `min_ttl`.  With the (constructible) configuration
`min_ttl = 10, max_ttl = 5` and a requested TTL of 7, the TTL is below
`min_ttl` yet `add` returns `TooLong`, because the `max_ttl` check runs
first. -/
theorem rendezvous_ttl_range_counterexample :
    (((Registrations.withConfig 10 5).add ⟨0, ⟨0, 0⟩, some 7⟩).1 =
      .error (.tooLong 5 7)) ∧
    (7 : Nat) < 10 ∧
    ¬ ((((Registrations.withConfig 10 5).add ⟨0, ⟨0, 0⟩, some 7⟩).1 =
        .error (.tooShort 10 7)) ↔ (7 : Nat) < 10) := by
  refine ⟨rfl, by norm_num, ?_⟩
  intro h
  have h2 := h.mpr (by norm_num)
  rw [show (((Registrations.withConfig 10 5).add ⟨0, ⟨0, 0⟩, some 7⟩).1) =
      .error (.tooLong 5 7) from rfl] at h2
  simp at h2

/-- C4 witness: `rendezvous_ttl_range_amended` applied at a concrete in-range
registration. -/
theorem rendezvous_ttl_range_amended_witness :
    ((Registrations.withConfig 0 100).add ⟨1, ⟨2, 3⟩, some 50⟩).1 =
      .ok ⟨1, ⟨2, 3⟩, 50⟩ :=
  (rendezvous_ttl_range_amended (Registrations.withConfig 0 100)
    ⟨1, ⟨2, 3⟩, some 50⟩).2.2.2 (by decide) (by decide)

/-! ### C5 — Discovery cookie validation -/

/-- When is `cookieValid` false, spelled out as a proposition. -/
theorem cookieValid_eq_false_iff (dns cns : Option RNamespace) :
    cookieValid dns cns = false ↔
      ∃ cn, cns = some cn ∧ (dns = none ∨ ∃ d, dns = some d ∧ d ≠ cn) := by
  cases dns <;> cases cns <;> simp [cookieValid]

/-- C5 (amended) — `Registrations::get` fails with `CookieNamespaceMismatch`
exactly when the supplied cookie embeds a namespace and the query namespace is
absent or different.  An unknown cookie does not cause a failure: it is
treated as an empty delivered set.  On failure the store is unchanged; on
success the returned cookie is fresh and bound to the query's namespace. -/
theorem rendezvous_cookie_validation_amended (s : Registrations)
    (dns : Option RNamespace) (c : Option Cookie) (lim : Option Nat) :
    ((∃ e, (s.get dns c lim).1 = .error e) ↔
      ∃ cn, c.bind Cookie.ns = some cn ∧
        (dns = none ∨ ∃ d, dns = some d ∧ d ≠ cn)) ∧
    ((s.get dns c lim).1 = .error .mk → (s.get dns c lim).2 = s) ∧
    (∀ ids regs ck, (s.get dns c lim).1 = .ok (ids, regs, ck) →
      ck = ⟨s.nextCookieId, dns⟩) := by
  cases hv : cookieValid dns (c.bind Cookie.ns)
  · rw [← cookieValid_eq_false_iff dns (c.bind Cookie.ns)]
    simp [Registrations.get, hv]
    exact ⟨.mk, trivial⟩
  · constructor
    · rw [show ((∃ cn, c.bind Cookie.ns = some cn ∧
          (dns = none ∨ ∃ d, dns = some d ∧ d ≠ cn)) ↔
          cookieValid dns (c.bind Cookie.ns) = false) from
          (cookieValid_eq_false_iff dns (c.bind Cookie.ns)).symm]
      simp [Registrations.get, hv]
    · constructor
      · intro h
        simp [Registrations.get, hv] at h
      · intro ids regs ck h
        simp [Registrations.get, hv] at h
        exact h.2.2.symm

/-- C5 counterexample — the claim asserts `get` fails when the supplied cookie
is unknown to the store.  On a fresh store (whose cookie map is empty, so the
supplied cookie is certainly unknown) a namespace-matching unknown cookie is
accepted and `get` succeeds. -/
theorem rendezvous_cookie_validation_counterexample :
    alookup (⟨99, some 5⟩ : Cookie) (Registrations.withConfig 0 100).cookies = none ∧
    ((Registrations.withConfig 0 100).get (some 5) (some ⟨99, some 5⟩) none).1 =
      .ok ([], [], ⟨0, some 5⟩) :=
  ⟨rfl, rfl⟩

/-- C5 witness: `rendezvous_cookie_validation_amended` applied at a concrete
mismatching cookie, showing the store is returned unchanged. -/
theorem rendezvous_cookie_validation_amended_witness :
    ((Registrations.withConfig 0 100).get (some 1) (some ⟨7, some 2⟩) none).2 =
      Registrations.withConfig 0 100 :=
  (rendezvous_cookie_validation_amended (Registrations.withConfig 0 100)
    (some 1) (some ⟨7, some 2⟩) none).2.1 rfl

/-! ### C6 — Fixed-iterator concurrency bound -/

theorem wcount_setPeerState_waiting (l : List (PeerId × FixedPeerState)) (k : PeerId) :
    ((setPeerState l k .waiting).filter
        (fun e => decide (e.2 = FixedPeerState.waiting))).length ≤
      (l.filter (fun e => decide (e.2 = FixedPeerState.waiting))).length + 1 := by
  induction l with
  | nil => simp [setPeerState]
  | cons e t ih =>
    by_cases h : e.1 = k
    · simp only [setPeerState, if_pos h, List.filter_cons]
      by_cases he : e.2 = FixedPeerState.waiting
      all_goals simp [he]
    · simp only [setPeerState, if_neg h, List.filter_cons]
      by_cases he : e.2 = FixedPeerState.waiting
      all_goals simp [he]
      all_goals omega

theorem wcount_setPeerState_not_waiting (l : List (PeerId × FixedPeerState))
    (k : PeerId) (st : FixedPeerState) (hst : st ≠ FixedPeerState.waiting) :
    ((setPeerState l k st).filter
        (fun e => decide (e.2 = FixedPeerState.waiting))).length ≤
      (l.filter (fun e => decide (e.2 = FixedPeerState.waiting))).length := by
  induction l with
  | nil => simp [setPeerState]
  | cons e t ih =>
    by_cases h : e.1 = k
    · simp only [setPeerState, if_pos h, List.filter_cons]
      by_cases he : e.2 = FixedPeerState.waiting
      all_goals simp [he, hst]
    · simp only [setPeerState, if_neg h, List.filter_cons]
      by_cases he : e.2 = FixedPeerState.waiting
      all_goals simp [he]
      all_goals omega

theorem keys_setPeerState (l : List (PeerId × FixedPeerState)) (k : PeerId)
    (st : FixedPeerState) :
    (setPeerState l k st).map (fun e => e.1) = l.map (fun e => e.1) := by
  induction l with
  | nil => rfl
  | cons e t ih =>
    by_cases h : e.1 = k
    · simp [setPeerState, h]
    · simp [setPeerState, h, ih]

/-- One fixed-iterator operation preserves the parallelism field and the
pre-declared peer set, and never pushes the waiting count above the
parallelism bound. -/
theorem applyFixedOp_facts (it : FixedPeersIter) (op : FixedOp) :
    (applyFixedOp it op).parallelism = it.parallelism ∧
    (applyFixedOp it op).peers.map (fun e => e.1) = it.peers.map (fun e => e.1) ∧
    (it.waitingCount ≤ it.parallelism →
      (applyFixedOp it op).waitingCount ≤ it.parallelism) := by
  cases op with
  | nextOp =>
    simp only [applyFixedOp]
    unfold FixedPeersIter.next
    by_cases hf : it.finishedFlag
    · simp [hf]
    · simp only [hf, if_false, Bool.false_eq_true]
      by_cases hc : it.parallelism ≤ it.waitingCount
      · simp [hc]
      · simp only [hc, if_false]
        cases hfind : it.peers.find?
            (fun e => decide (e.2 = FixedPeerState.notContacted)) with
        | none =>
          by_cases hz : it.waitingCount = 0
          · rw [if_pos hz]
            exact ⟨rfl, rfl, fun h => h⟩
          · rw [if_neg hz]
            exact ⟨rfl, rfl, fun h => h⟩
        | some e =>
          refine ⟨rfl, keys_setPeerState .., fun _ => ?_⟩
          have h1 := wcount_setPeerState_waiting it.peers e.1
          have h2 : it.waitingCount < it.parallelism := Nat.not_le.mp hc
          unfold FixedPeersIter.waitingCount at h2 ⊢
          simp only
          omega
  | succOp p =>
    simp only [applyFixedOp, FixedPeersIter.onSuccess]
    cases hl : alookup p it.peers with
    | none => exact ⟨rfl, rfl, fun h => h⟩
    | some st =>
      cases st with
      | waiting =>
        refine ⟨rfl, keys_setPeerState .., fun h => ?_⟩
        exact Nat.le_trans
          (wcount_setPeerState_not_waiting it.peers p .succeeded (by simp)) h
      | notContacted => exact ⟨rfl, rfl, fun h => h⟩
      | succeeded => exact ⟨rfl, rfl, fun h => h⟩
      | failed => exact ⟨rfl, rfl, fun h => h⟩
  | failOp p =>
    simp only [applyFixedOp, FixedPeersIter.onFailure]
    cases hl : alookup p it.peers with
    | none => exact ⟨rfl, rfl, fun h => h⟩
    | some st =>
      cases st with
      | waiting =>
        refine ⟨rfl, keys_setPeerState .., fun h => ?_⟩
        exact Nat.le_trans
          (wcount_setPeerState_not_waiting it.peers p .failed (by simp)) h
      | notContacted => exact ⟨rfl, rfl, fun h => h⟩
      | succeeded => exact ⟨rfl, rfl, fun h => h⟩
      | failed => exact ⟨rfl, rfl, fun h => h⟩
  | finishOp => exact ⟨rfl, rfl, fun h => h⟩

/-- Invariant of `runFixed`: the parallelism field and peer set are those of
the initial iterator, and the waiting count never exceeds the parallelism
field. -/
theorem runFixed_inv (ops : List FixedOp) (it : FixedPeersIter)
    (h : it.waitingCount ≤ it.parallelism) :
    (runFixed it ops).waitingCount ≤ it.parallelism ∧
    (runFixed it ops).parallelism = it.parallelism ∧
    (runFixed it ops).peers.map (fun e => e.1) = it.peers.map (fun e => e.1) := by
  induction ops generalizing it with
  | nil => exact ⟨h, rfl, rfl⟩
  | cons op rest ih =>
    obtain ⟨hp, hk, hw⟩ := applyFixedOp_facts it op
    have := ih (applyFixedOp it op) (by rw [hp]; exact hw h)
    rw [runFixed] at *
    simp only [List.foldl_cons]
    exact ⟨by rw [← hp]; exact this.1, by rw [this.2.1, hp],
           by rw [this.2.2, hk]⟩

/-- Every peer of a freshly constructed fixed iterator is `NotContacted`. -/
theorem new_peers_states (peers : List PeerId) (par : Nat) :
    ∀ e ∈ (FixedPeersIter.new peers par).peers, e.2 = FixedPeerState.notContacted := by
  unfold FixedPeersIter.new
  simp only
  have aux : ∀ (ps : List PeerId) (acc : List (PeerId × FixedPeerState)),
      (∀ e ∈ acc, e.2 = FixedPeerState.notContacted) →
      ∀ e ∈ ps.foldl (fun acc p =>
        if acc.any (fun e => decide (e.1 = p)) then acc
        else acc ++ [(p, FixedPeerState.notContacted)]) acc,
        e.2 = FixedPeerState.notContacted := by
    intro ps
    induction ps with
    | nil => intro acc hacc e he; exact hacc e he
    | cons p t ih =>
      intro acc hacc e he
      simp only [List.foldl_cons] at he
      by_cases hc : acc.any (fun e => decide (e.1 = p))
      · exact ih _ (by simpa [hc] using hacc) e (by simpa [hc] using he)
      · refine ih _ ?_ e (by simpa [hc] using he)
        intro e2 he2
        rcases List.mem_append.mp he2 with h2 | h2
        · exact hacc e2 h2
        · simp at h2; simp [h2]
  exact aux peers [] (by simp)

/-- A freshly constructed fixed iterator has no peer in `Waiting`. -/
theorem new_waitingCount (peers : List PeerId) (par : Nat) :
    (FixedPeersIter.new peers par).waitingCount = 0 := by
  unfold FixedPeersIter.waitingCount
  rw [List.length_eq_zero, List.filter_eq_nil_iff]
  intro e he
  have := new_peers_states peers par e he
  simp [this]

/-- C6 (amended) — the iterator built by `QueryPool::continue_fixed` /
`add_fixed` receives the pool's `replication_factor` (k, default 20), not its
`parallelism` (α, default 3), as concurrency bound: over any sequence of
operations it dispatches at most `replication_factor` peers concurrently, and
its peer set stays the pre-declared one (no dynamic learning). -/
theorem fixed_iter_concurrency_amended (cfg : QueryConfig) (peers : List PeerId)
    (ops : List FixedOp) :
    (runFixed (mkFixedQueryIter cfg peers) ops).waitingCount ≤ cfg.replicationFactor ∧
    (runFixed (mkFixedQueryIter cfg peers) ops).parallelism = cfg.replicationFactor ∧
    (runFixed (mkFixedQueryIter cfg peers) ops).peers.map (fun e => e.1) =
      (mkFixedQueryIter cfg peers).peers.map (fun e => e.1) := by
  have h0 : (mkFixedQueryIter cfg peers).waitingCount = 0 :=
    new_waitingCount peers cfg.replicationFactor
  have hp : (mkFixedQueryIter cfg peers).parallelism = cfg.replicationFactor := rfl
  have := runFixed_inv ops (mkFixedQueryIter cfg peers) (by rw [h0]; exact Nat.zero_le _)
  exact ⟨by rw [← hp]; exact this.1, by rw [this.2.1, hp], this.2.2⟩

/-- C6 counterexample — with the default configuration (`parallelism` α = 3,
`replication_factor` k = 20) a fixed query over four peers dispatches all four
concurrently after four `next` calls: the claimed bound α = 3 is exceeded. -/
theorem fixed_iter_concurrency_counterexample :
    QueryConfig.default.parallelism = 3 ∧
    (runFixed (mkFixedQueryIter QueryConfig.default [0, 1, 2, 3])
        [.nextOp, .nextOp, .nextOp, .nextOp]).waitingCount = 4 ∧
    ¬ ((runFixed (mkFixedQueryIter QueryConfig.default [0, 1, 2, 3])
        [.nextOp, .nextOp, .nextOp, .nextOp]).waitingCount ≤
      QueryConfig.default.parallelism) := by
  refine ⟨rfl, by decide, by decide⟩

/-! ### C7 — Query pool poll -/

theorem pollScan_length (t now : Nat) (qs : List (Nat × PoolQuery)) :
    (pollScan t now qs).1.length = qs.length := by
  induction qs with
  | nil => rfl
  | cons e rest ih =>
    obtain ⟨qid, q⟩ := e
    simp only [pollScan]
    cases hs : q.step now with
    | finished => simp
    | waitingAtCapacity =>
      by_cases ht : t ≤ now - ((q.start.or (some now)).getD now)
      · simp [ht]
      · simp [ht, ih]
    | waiting po =>
      cases po with
      | some pid => simp
      | none =>
        by_cases ht : t ≤ now - ((q.start.or (some now)).getD now)
        · simp [ht]
        · simp [ht, ih]

/-- The scan processes a prefix of the query list, setting
`stats.start = stats.start.or(now)` on exactly the scanned queries; when no
effect is found, every query has been scanned. -/
theorem pollScan_start_shape (t now : Nat) (qs : List (Nat × PoolQuery)) :
    ∃ k, k ≤ qs.length ∧
      (pollScan t now qs).1.map (fun e => (e.1, e.2.start)) =
        (qs.take k).map (fun e => (e.1, e.2.start.or (some now))) ++
        (qs.drop k).map (fun e => (e.1, e.2.start)) ∧
      ((pollScan t now qs).2 = none → k = qs.length) := by
  induction qs with
  | nil => exact ⟨0, by simp, by simp [pollScan], fun _ => rfl⟩
  | cons e rest ih =>
    obtain ⟨qid, q⟩ := e
    simp only [pollScan]
    cases hs : q.step now with
    | finished =>
      refine ⟨1, by simp, ?_, by simp⟩
      simp
    | waitingAtCapacity =>
      by_cases ht : t ≤ now - ((q.start.or (some now)).getD now)
      · refine ⟨1, by simp, ?_, by simp [ht]⟩
        simp [ht]
      · obtain ⟨k, hk, hshape, hnone⟩ := ih
        refine ⟨k + 1, by simp; omega, ?_, ?_⟩
        · simp [ht, hshape]
        · intro hn
          simp only [ht, if_false] at hn
          simp [hnone (by simpa using hn)]
    | waiting po =>
      cases po with
      | some pid =>
        refine ⟨1, by simp, ?_, by simp⟩
        simp
      | none =>
        by_cases ht : t ≤ now - ((q.start.or (some now)).getD now)
        · refine ⟨1, by simp, ?_, by simp [ht]⟩
          simp [ht]
        · obtain ⟨k, hk, hshape, hnone⟩ := ih
          refine ⟨k + 1, by simp; omega, ?_, ?_⟩
          · simp [ht, hshape]
          · intro hn
            simp only [ht, if_false] at hn
            simp [hnone (by simpa using hn)]

/-- When the scan reports a timeout, the timed-out query's iterator yielded
`Waiting(None)` or `WaitingAtCapacity` and the elapsed time since its start
reached the pool timeout. -/
theorem pollScan_timedOut (t now : Nat) (qs : List (Nat × PoolQuery))
    (qid : Nat) (q2 : PoolQuery)
    (h : (pollScan t now qs).2 = some (.timedOut qid q2)) :
    (q2.step now = .waiting none ∨ q2.step now = .waitingAtCapacity) ∧
    t ≤ now - (q2.start.getD now) := by
  induction qs with
  | nil => simp [pollScan] at h
  | cons e rest ih =>
    obtain ⟨qid1, q⟩ := e
    simp only [pollScan] at h
    cases hs : q.step now with
    | finished => rw [hs] at h; simp at h
    | waitingAtCapacity =>
      rw [hs] at h
      by_cases ht : t ≤ now - ((q.start.or (some now)).getD now)
      · rw [if_pos ht] at h
        simp only [Option.some.injEq, ScanEffect.timedOut.injEq] at h
        obtain ⟨h1, h2⟩ := h
        subst h2
        exact ⟨Or.inr hs, ht⟩
      · rw [if_neg ht] at h
        exact ih h
    | waiting po =>
      rw [hs] at h
      cases po with
      | some pid => simp at h
      | none =>
        by_cases ht : t ≤ now - ((q.start.or (some now)).getD now)
        · rw [if_pos ht] at h
          simp only [Option.some.injEq, ScanEffect.timedOut.injEq] at h
          obtain ⟨h1, h2⟩ := h
          subst h2
          exact ⟨Or.inl hs, ht⟩
        · rw [if_neg ht] at h
          exact ih h

/-- C7 — Pool poll timeout and single effect: `Idle` is returned exactly when
the query map is empty; each scanned query first gets `stats.start` set to
`now` if unset; when the scan stops at a query whose iterator yields
`Waiting(None)` or `WaitingAtCapacity` with `now - stats.start` at least the
pool timeout, that query is removed from the pool and `Timeout(query)` is
returned with `stats.end = now`; conversely any returned timeout arose that
way and the timed-out query is no longer in the pool.  At most one effect per
call holds structurally: `poll` returns exactly one `QueryPoolState`. -/
theorem query_pool_poll_spec (p : QueryPool) (now : Nat) :
    ((p.poll now).1 = .idle ↔ p.queries = []) ∧
    (∃ k, k ≤ p.queries.length ∧
      (pollScan p.timeout now p.queries).1.map (fun e => (e.1, e.2.start)) =
        (p.queries.take k).map (fun e => (e.1, e.2.start.or (some now))) ++
        (p.queries.drop k).map (fun e => (e.1, e.2.start)) ∧
      ((pollScan p.timeout now p.queries).2 = none → k = p.queries.length)) ∧
    (∀ qid q rest, p.queries = (qid, q) :: rest →
      (q.step now = .waiting none ∨ q.step now = .waitingAtCapacity) →
      p.timeout ≤ now - ((q.start.or (some now)).getD now) →
      (p.poll now).1 =
        .timeoutQ qid ⟨q.start.or (some now), some now, q.requests, q.step⟩ ∧
      (p.poll now).2.queries = rest.filter (fun e => decide (e.1 ≠ qid))) ∧
    (∀ qid q, (p.poll now).1 = .timeoutQ qid q →
      (q.step now = .waiting none ∨ q.step now = .waitingAtCapacity) ∧
      p.timeout ≤ now - (q.start.getD now) ∧
      q.stop = some now ∧
      ∀ e ∈ (p.poll now).2.queries, e.1 ≠ qid) := by
  obtain ⟨tout, qs⟩ := p
  refine ⟨?_, pollScan_start_shape tout now qs, ?_, ?_⟩
  · constructor
    · intro h
      unfold QueryPool.poll at h
      simp only at h
      cases he : (pollScan tout now qs).2 with
      | some eff =>
        rw [he] at h
        cases eff <;> simp at h
      | none =>
        rw [he] at h
        by_cases hemp : (pollScan tout now qs).1.isEmpty
        · have := pollScan_length tout now qs
          rw [List.isEmpty_iff] at hemp
          rw [hemp] at this
          simpa using (List.length_eq_zero.mp this.symm)
        · simp only [hemp, if_false, Bool.false_eq_true] at h
          simp at h
    · intro h
      simp only at h
      subst h
      rfl
  · intro qid q rest hq hstep ht
    simp only at hq
    subst hq
    have hscan : pollScan tout now ((qid, q) :: rest) =
        ((qid, { q with start := q.start.or (some now) }) :: rest,
          some (.timedOut qid { q with start := q.start.or (some now) })) := by
      simp only [pollScan]
      rcases hstep with hs | hs <;> rw [hs] <;> rw [if_pos ht]
    constructor
    · show (QueryPool.poll ⟨tout, (qid, q) :: rest⟩ now).1 = _
      unfold QueryPool.poll
      simp only
      rw [hscan]
    · show (QueryPool.poll ⟨tout, (qid, q) :: rest⟩ now).2.queries = _
      unfold QueryPool.poll
      simp only
      rw [hscan]
      simp [removeQ, List.filter_cons]
  · intro qid q h
    unfold QueryPool.poll at h ⊢
    simp only at h ⊢
    cases he : (pollScan tout now qs).2 with
    | none =>
      rw [he] at h
      by_cases hemp : (pollScan tout now qs).1.isEmpty <;>
        simp [hemp] at h
    | some eff =>
      rw [he] at h
      cases eff with
      | waitingPeer qid2 pid => simp at h
      | finishedQ qid2 q2 => simp at h
      | timedOut qid2 q2 =>
        simp only [PollState.timeoutQ.injEq] at h
        obtain ⟨h1, h2⟩ := h
        subst h1
        have hfacts := pollScan_timedOut tout now qs qid2 q2 he
        have hstep : q.step now = q2.step now := by rw [← h2]
        have hstart : q.start = q2.start := by rw [← h2]
        have hstop : q.stop = some now := by rw [← h2]
        refine ⟨by rw [hstep]; exact hfacts.1, by rw [hstart]; exact hfacts.2,
          hstop, ?_⟩
        intro e he2
        simp only [removeQ] at he2
        have := List.mem_filter.mp he2
        simpa using this.2

/-- C7 witness: a one-query pool whose query started 40 seconds before `now`
with a 10-second pool timeout is reported as a timeout with `stats.end` set. -/
theorem query_pool_poll_spec_witness :
    ((⟨10, [(0, ⟨some 20, none, 0, fun _ => IterState.waiting none⟩)]⟩ :
        QueryPool).poll 60).1 =
      .timeoutQ 0 ⟨some 20, some 60, 0, fun _ => IterState.waiting none⟩ :=
  ((query_pool_poll_spec
      ⟨10, [(0, ⟨some 20, none, 0, fun _ => IterState.waiting none⟩)]⟩ 60).2.2.1
    0 ⟨some 20, none, 0, fun _ => IterState.waiting none⟩ [] rfl (Or.inl rfl)
    (by decide)).1

/-! ### C8 — Expiry handling -/

theorem processExpired_cookies (s : Registrations) (rid : Nat) :
    ((s.processExpired rid).2).cookies = shrinkCookies s.cookies rid := by
  unfold Registrations.processExpired
  cases h : alookup rid s.registrations <;> rfl

theorem shrinkCookies_cons (e : Cookie × List Nat) (t : List (Cookie × List Nat))
    (rid : Nat) :
    shrinkCookies (e :: t) rid =
      if e.2.filter (fun x => decide (x ≠ rid)) = [] then shrinkCookies t rid
      else (e.1, e.2.filter (fun x => decide (x ≠ rid))) :: shrinkCookies t rid := by
  by_cases hemp : e.2.filter (fun x => decide (x ≠ rid)) = []
  · rw [if_pos hemp]
    unfold shrinkCookies
    rw [List.map_cons, List.filter_cons, if_neg (by simpa using hemp)]
  · rw [if_neg hemp]
    unfold shrinkCookies
    rw [List.map_cons, List.filter_cons, if_pos (by simpa using hemp)]

/-- Shrinking keeps only keys that were present before. -/
theorem mem_shrinkCookies_keys (cookies : List (Cookie × List Nat)) (rid : Nat)
    (e : Cookie × List Nat) (he : e ∈ shrinkCookies cookies rid) :
    ∃ a ∈ cookies, e.1 = a.1 ∧ e.2 = a.2.filter (fun x => decide (x ≠ rid)) := by
  unfold shrinkCookies at he
  have h1 := (List.mem_filter.mp he).1
  obtain ⟨a, ha, hae⟩ := List.mem_map.mp h1
  exact ⟨a, ha, by rw [← hae], by rw [← hae]⟩

/-- A cookie absent before shrinking is absent afterwards. -/
theorem alookup_shrinkCookies_none (cookies : List (Cookie × List Nat)) (rid : Nat)
    (c : Cookie) (hl : alookup c cookies = none) :
    alookup c (shrinkCookies cookies rid) = none := by
  rw [alookup_eq_none] at hl ⊢
  intro e he
  obtain ⟨a, ha, h1, _⟩ := mem_shrinkCookies_keys cookies rid e he
  rw [h1]
  exact hl a ha

/-- A cookie whose shrunken set is non-empty survives with that set. -/
theorem alookup_shrinkCookies_some (cookies : List (Cookie × List Nat)) (rid : Nat)
    (c : Cookie) (D : List Nat) (hl : alookup c cookies = some D)
    (hne : D.filter (fun x => decide (x ≠ rid)) ≠ []) :
    alookup c (shrinkCookies cookies rid) =
      some (D.filter (fun x => decide (x ≠ rid))) := by
  induction cookies with
  | nil => simp [alookup] at hl
  | cons e t ih =>
    rw [alookup_cons] at hl
    by_cases hk : e.1 = c
    · rw [if_pos hk] at hl
      have hD : e.2 = D := Option.some.inj hl
      rw [shrinkCookies_cons, hD, if_neg hne, alookup_cons, if_pos hk]
    · rw [if_neg hk] at hl
      rw [shrinkCookies_cons]
      by_cases hemp : e.2.filter (fun x => decide (x ≠ rid)) = []
      · rw [if_pos hemp]
        exact ih hl
      · rw [if_neg hemp, alookup_cons, if_neg hk]
        exact ih hl

/-- With unique cookie keys, a cookie whose set shrinks to empty is pruned. -/
theorem alookup_shrinkCookies_pruned (cookies : List (Cookie × List Nat)) (rid : Nat)
    (c : Cookie) (D : List Nat)
    (hnodup : (cookies.map (fun e => e.1)).Nodup)
    (hl : alookup c cookies = some D)
    (hemp : D.filter (fun x => decide (x ≠ rid)) = []) :
    alookup c (shrinkCookies cookies rid) = none := by
  induction cookies with
  | nil => simp [alookup] at hl
  | cons e t ih =>
    rw [alookup_cons] at hl
    rw [List.map_cons, List.nodup_cons] at hnodup
    by_cases hk : e.1 = c
    · rw [if_pos hk] at hl
      have hD : e.2 = D := Option.some.inj hl
      rw [shrinkCookies_cons, hD, if_pos hemp]
      apply alookup_shrinkCookies_none
      rw [alookup_eq_none]
      intro e2 he2 hke
      exact hnodup.1 (by rw [hk, ← hke]; exact List.mem_map_of_mem _ he2)
    · rw [if_neg hk] at hl
      rw [shrinkCookies_cons]
      by_cases he : e.2.filter (fun x => decide (x ≠ rid)) = []
      · rw [if_pos he]
        exact ih hnodup.2 hl
      · rw [if_neg he, alookup_cons, if_neg hk]
        exact ih hnodup.2 hl

/-- Shrinking preserves uniqueness of cookie keys. -/
theorem shrinkCookies_keys_nodup (cookies : List (Cookie × List Nat)) (rid : Nat)
    (h : (cookies.map (fun e => e.1)).Nodup) :
    ((shrinkCookies cookies rid).map (fun e => e.1)).Nodup := by
  unfold shrinkCookies
  have hsub : ((cookies.map
      (fun e => (e.1, e.2.filter (fun x => decide (x ≠ rid))))).filter
        (fun e => decide (e.2 ≠ []))).Sublist
      (cookies.map (fun e => (e.1, e.2.filter (fun x => decide (x ≠ rid))))) :=
    List.filter_sublist _
  have := (hsub.map (fun e => e.1)).nodup
  apply this
  rw [List.map_map]
  exact h

theorem processExpired_cookie_keys_nodup (s : Registrations) (rid : Nat)
    (h : (s.cookies.map (fun e => e.1)).Nodup) :
    (((s.processExpired rid).2).cookies.map (fun e => e.1)).Nodup := by
  rw [processExpired_cookies]
  exact shrinkCookies_keys_nodup s.cookies rid h

/-- A cookie absent from the store stays absent under any amount of expiry
processing. -/
theorem expireAll_absent (rids : List Nat) (s : Registrations) (c : Cookie)
    (h : alookup c s.cookies = none) :
    alookup c (expireAll s rids).cookies = none := by
  induction rids generalizing s with
  | nil => exact h
  | cons r rest ih =>
    have hstep : alookup c ((s.processExpired r).2).cookies = none := by
      rw [processExpired_cookies]
      exact alookup_shrinkCookies_none s.cookies r c h
    simpa [expireAll, List.foldl_cons] using ih ((s.processExpired r).2) hstep

/-- Once every id referenced by a (non-empty) cookie has been processed as
expired, the cookie is no longer retained. -/
theorem expireAll_cleanup (rids : List Nat) (s : Registrations) (c : Cookie)
    (D : List Nat) (hnodup : (s.cookies.map (fun e => e.1)).Nodup)
    (hl : alookup c s.cookies = some D) (hne : D ≠ [])
    (hsub : ∀ x ∈ D, x ∈ rids) :
    alookup c (expireAll s rids).cookies = none := by
  induction rids generalizing s D with
  | nil =>
    obtain ⟨x, hx⟩ := List.exists_mem_of_ne_nil D hne
    exact absurd (hsub x hx) (List.not_mem_nil x)
  | cons r rest ih =>
    have hrw : expireAll s (r :: rest) = expireAll ((s.processExpired r).2) rest := by
      simp [expireAll, List.foldl_cons]
    rw [hrw]
    by_cases hemp : D.filter (fun x => decide (x ≠ r)) = []
    · apply expireAll_absent
      rw [processExpired_cookies]
      exact alookup_shrinkCookies_pruned s.cookies r c D hnodup hl hemp
    · apply ih ((s.processExpired r).2) (D.filter (fun x => decide (x ≠ r)))
      · exact processExpired_cookie_keys_nodup s r hnodup
      · rw [processExpired_cookies]
        exact alookup_shrinkCookies_some s.cookies r c D hl hemp
      · exact hemp
      · intro x hx
        have h1 := (List.mem_filter.mp hx).1
        have h2 := (List.mem_filter.mp hx).2
        have h3 : x ≠ r := by simpa using h2
        have h4 := hsub x h1
        simp only [List.mem_cons] at h4
        exact h4.resolve_left h3

/-- C8 — Expiry handling: when a timer fires for a still-present registration
id, the registration is removed from the primary map, the peer-namespace
index and every cookie's delivered set (cookies whose set becomes empty are
dropped, surviving cookies keep their shrunken set) and `Expired` is emitted;
when the id is absent (already unregistered or replaced) no event is emitted
and polling continues with the remaining fired timers; a registration removed
before its TTL elapses therefore never produces an `Expired` event; and once
every id referenced by a (non-empty) cookie has been processed as expired,
that cookie is no longer retained (given the hash-map invariant that cookie
keys are unique). -/
theorem rendezvous_expiry_spec (s : Registrations) (rid : Nat) :
    (∀ reg, alookup rid s.registrations = some reg →
      (s.processExpired rid).1 = some reg ∧
      alookup rid ((s.processExpired rid).2).registrations = none ∧
      (∀ e ∈ ((s.processExpired rid).2).regsForPeer, e.2 ≠ rid) ∧
      (∀ e ∈ ((s.processExpired rid).2).cookies, rid ∉ e.2 ∧ e.2 ≠ []) ∧
      (∀ c D, alookup c s.cookies = some D →
        D.filter (fun x => decide (x ≠ rid)) ≠ [] →
        alookup c ((s.processExpired rid).2).cookies =
          some (D.filter (fun x => decide (x ≠ rid))))) ∧
    (alookup rid s.registrations = none →
      (s.processExpired rid).1 = none ∧
      ∀ rest, s.pollFired (rid :: rest) = ((s.processExpired rid).2).pollFired rest) ∧
    (∀ p n rid2, alookup (p, n) s.regsForPeer = some rid2 →
      ((s.remove n p).processExpired rid2).1 = none) ∧
    (∀ c D rids, (s.cookies.map (fun e => e.1)).Nodup →
      alookup c s.cookies = some D → D ≠ [] → (∀ x ∈ D, x ∈ rids) →
      alookup c (expireAll s rids).cookies = none) := by
  refine ⟨?_, ?_, ?_, fun c D rids hnd hl hne hsub =>
    expireAll_cleanup rids s c D hnd hl hne hsub⟩
  · intro reg hl
    have hcook := processExpired_cookies s rid
    refine ⟨?_, ?_, ?_, ?_, ?_⟩
    · unfold Registrations.processExpired
      rw [hl]
    · show alookup rid ((s.processExpired rid).2).registrations = none
      unfold Registrations.processExpired
      rw [hl]
      exact alookup_mapRemove_self rid s.registrations
    · intro e he
      have he2 : e ∈ s.regsForPeer.filter (fun e => decide (e.2 ≠ rid)) := by
        revert he
        unfold Registrations.processExpired
        rw [hl]
        exact fun he => he
      simpa using (List.mem_filter.mp he2).2
    · intro e he
      rw [hcook] at he
      obtain ⟨a, _, _, h2⟩ := mem_shrinkCookies_keys s.cookies rid e he
      constructor
      · intro hmem
        rw [h2] at hmem
        simpa using (List.mem_filter.mp hmem).2
      · have := (List.mem_filter.mp (by exact he : e ∈ shrinkCookies s.cookies rid)).2
        simpa using this
    · intro c D hl2 hne
      rw [hcook]
      exact alookup_shrinkCookies_some s.cookies rid c D hl2 hne
  · intro hl
    constructor
    · unfold Registrations.processExpired
      rw [hl]
    · intro rest
      have hpair : s.processExpired rid = (none, (s.processExpired rid).2) := by
        have h1 : (s.processExpired rid).1 = none := by
          unfold Registrations.processExpired
          rw [hl]
        rw [← h1]
      conv_lhs => rw [Registrations.pollFired, hpair]
  · intro p n rid2 hl
    unfold Registrations.remove
    rw [hl]
    unfold Registrations.processExpired
    simp only
    rw [alookup_mapRemove_self rid2 s.registrations]

/-- C8 witness: `rendezvous_expiry_spec` applied to a store holding one
registration whose timer fires: the `Expired` event carries the
registration. -/
theorem rendezvous_expiry_spec_witness :
    ((((Registrations.withConfig 0 100).add ⟨3, ⟨7, 0⟩, some 5⟩).2).processExpired 0).1 =
      some ⟨3, ⟨7, 0⟩, 5⟩ :=
  ((rendezvous_expiry_spec (((Registrations.withConfig 0 100).add
      ⟨3, ⟨7, 0⟩, some 5⟩).2) 0).1 ⟨3, ⟨7, 0⟩, 5⟩ (by decide)).1

/-! ### C3 — Registration uniqueness: the store invariant -/

theorem nodup_snoc {γ : Type} (l : List γ) (a : γ) (h : l.Nodup) (ha : a ∉ l) :
    (l ++ [a]).Nodup := by
  rw [List.nodup_append]
  refine ⟨h, List.nodup_singleton a, ?_⟩
  intro x hx hxa
  simp only [List.mem_singleton] at hxa
  subst hxa
  exact ha hx

theorem mapInsert_keys_nodup {α β : Type} [DecidableEq α] (k : α) (v : β)
    (l : List (α × β)) (h : (l.map (fun e => e.1)).Nodup) :
    ((mapInsert k v l).map (fun e => e.1)).Nodup := by
  unfold mapInsert
  rw [List.map_append]
  simp only [List.map_cons, List.map_nil]
  apply nodup_snoc
  · exact h.sublist ((List.filter_sublist _).map _)
  · intro hk
    obtain ⟨e, he, he2⟩ := List.mem_map.mp hk
    have h2 := (List.mem_filter.mp he).2
    simp [show e.1 = k from he2] at h2

/-- With a fresh right component, the overwriting `BiMap::insert` coincides
with a plain key-overwriting map insert. -/
theorem bimapInsert_fresh (l : PeerId × RNamespace) (r : Nat)
    (m : List ((PeerId × RNamespace) × Nat)) (hfresh : ∀ e ∈ m, e.2 ≠ r) :
    bimapInsert l r m = mapInsert l r m := by
  unfold bimapInsert mapInsert
  congr 1
  apply List.filter_congr
  intro e he
  have h2 := hfresh e he
  simp [h2]

theorem wfR_withConfig (minT maxT : Ttl) : WfR (Registrations.withConfig minT maxT) := by
  constructor <;> simp [Registrations.withConfig]

/-- Rewriting `add` in the success case into its components. -/
theorem add_state (s : Registrations) (nr : NewRegistration)
    (hmax : ¬ s.maxTtl < nr.effectiveTtl) (hmin : ¬ nr.effectiveTtl < s.minTtl) :
    (s.add nr).2 = { s with
      regsForPeer := bimapInsert (nr.record.peer, nr.ns) s.nextRegId s.regsForPeer,
      registrations := mapInsert s.nextRegId ⟨nr.ns, nr.record, nr.effectiveTtl⟩
        (match alookup (nr.record.peer, nr.ns) s.regsForPeer with
         | some old => mapRemove old s.registrations
         | none => s.registrations),
      timers := s.timers ++ [(nr.effectiveTtl, s.nextRegId)],
      nextRegId := s.nextRegId + 1 } := by
  unfold Registrations.add
  rw [if_neg hmax, if_neg hmin]

/-- `add` preserves the store invariant. -/
theorem wfR_add (s : Registrations) (nr : NewRegistration) (h : WfR s) :
    WfR ((s.add nr).2) := by
  by_cases hmax : s.maxTtl < nr.effectiveTtl
  · unfold Registrations.add
    rw [if_pos hmax]
    exact h
  · by_cases hmin : nr.effectiveTtl < s.minTtl
    · unfold Registrations.add
      rw [if_neg hmax, if_pos hmin]
      exact h
    · rw [add_state s nr hmax hmin]
      have hb : bimapInsert (nr.record.peer, nr.ns) s.nextRegId s.regsForPeer =
          mapInsert (nr.record.peer, nr.ns) s.nextRegId s.regsForPeer :=
        bimapInsert_fresh _ _ _ (fun e he => Nat.ne_of_lt (h.bimapFresh e he))
      have hregs1sub : ∀ e ∈ (match alookup (nr.record.peer, nr.ns) s.regsForPeer with
          | some old => mapRemove old s.registrations
          | none => s.registrations), e ∈ s.registrations := by
        cases halo : alookup (nr.record.peer, nr.ns) s.regsForPeer with
        | some old =>
          intro e he
          exact (List.mem_filter.mp he).1
        | none => exact fun e he => he
      have hregs1keys : ∀ e ∈ (match alookup (nr.record.peer, nr.ns) s.regsForPeer with
          | some old => mapRemove old s.registrations
          | none => s.registrations), e.1 < s.nextRegId :=
        fun e he => h.regFresh e (hregs1sub e he)
      have hregs1nodup : ((((match alookup (nr.record.peer, nr.ns) s.regsForPeer with
          | some old => mapRemove old s.registrations
          | none => s.registrations) : List (Nat × Registration))).map
            (fun e => e.1)).Nodup := by
        cases halo : alookup (nr.record.peer, nr.ns) s.regsForPeer with
        | some old => exact h.regKeysNodup.sublist ((List.filter_sublist _).map _)
        | none => exact h.regKeysNodup
      have hregs2 : mapInsert s.nextRegId
          (⟨nr.ns, nr.record, nr.effectiveTtl⟩ : Registration)
          (match alookup (nr.record.peer, nr.ns) s.regsForPeer with
           | some old => mapRemove old s.registrations
           | none => s.registrations) =
          (match alookup (nr.record.peer, nr.ns) s.regsForPeer with
           | some old => mapRemove old s.registrations
           | none => s.registrations) ++
            [(s.nextRegId, ⟨nr.ns, nr.record, nr.effectiveTtl⟩)] := by
        unfold mapInsert
        congr 1
        apply List.filter_eq_self.mpr
        intro e he
        simpa using Nat.ne_of_lt (hregs1keys e he)
      constructor
      · show ((bimapInsert (nr.record.peer, nr.ns) s.nextRegId s.regsForPeer).map
            (fun e => e.1)).Nodup
        rw [hb]
        exact mapInsert_keys_nodup _ _ _ h.pairsNodup
      · show ((bimapInsert (nr.record.peer, nr.ns) s.nextRegId s.regsForPeer).map
            (fun e => e.2)).Nodup
        rw [hb]
        unfold mapInsert
        rw [List.map_append]
        simp only [List.map_cons, List.map_nil]
        apply nodup_snoc
        · exact h.idsNodup.sublist ((List.filter_sublist _).map _)
        · intro hmem
          obtain ⟨e, he, he2⟩ := List.mem_map.mp hmem
          exact Nat.ne_of_lt (h.bimapFresh e (List.mem_filter.mp he).1) he2
      · exact mapInsert_keys_nodup _ _ _ hregs1nodup
      · show ∀ e ∈ bimapInsert (nr.record.peer, nr.ns) s.nextRegId s.regsForPeer, _
        rw [hb]
        intro e he
        unfold mapInsert at he
        rcases List.mem_append.mp he with heF | heS
        · have heM := (List.mem_filter.mp heF).1
          have heK : e.1 ≠ (nr.record.peer, nr.ns) := by
            simpa using (List.mem_filter.mp heF).2
          obtain ⟨rege, hre, hp1, hp2⟩ := h.toReg e heM
          refine ⟨rege, ?_, hp1, hp2⟩
          show alookup e.2 (mapInsert s.nextRegId _ _) = some rege
          rw [hregs2, alookup_append]
          have h1 : alookup e.2 (match alookup (nr.record.peer, nr.ns) s.regsForPeer with
              | some old => mapRemove old s.registrations
              | none => s.registrations) = some rege := by
            cases halo : alookup (nr.record.peer, nr.ns) s.regsForPeer with
            | none => exact hre
            | some old =>
              have hold : ((nr.record.peer, nr.ns), old) ∈ s.regsForPeer :=
                mem_of_alookup halo
              have hne : e.2 ≠ old := by
                intro h2
                exact heK (congrArg Prod.fst
                  (List.inj_on_of_nodup_map h.idsNodup heM hold h2))
              rw [alookup_mapRemove_ne s.registrations hne]
              exact hre
          rw [h1]
          rfl
        · simp only [List.mem_singleton] at heS
          subst heS
          refine ⟨⟨nr.ns, nr.record, nr.effectiveTtl⟩, ?_, rfl, rfl⟩
          show alookup s.nextRegId (mapInsert s.nextRegId _ _) = _
          rw [hregs2, alookup_append]
          have h1 : alookup s.nextRegId
              (match alookup (nr.record.peer, nr.ns) s.regsForPeer with
               | some old => mapRemove old s.registrations
               | none => s.registrations) = none :=
            alookup_eq_none.mpr (fun e2 he2 => Nat.ne_of_lt (hregs1keys e2 he2))
          rw [h1]
          simp [alookup_cons]
      · intro e he
        rw [hregs2] at he
        rcases List.mem_append.mp he with he1 | he1
        · have heS := hregs1sub e he1
          have hpair := h.toBimap e heS
          show _ ∈ bimapInsert (nr.record.peer, nr.ns) s.nextRegId s.regsForPeer
          rw [hb]
          unfold mapInsert
          apply List.mem_append.mpr
          left
          rw [List.mem_filter]
          refine ⟨hpair, ?_⟩
          simp only [decide_eq_true_eq]
          intro hEq
          rw [hEq] at hpair
          cases halo : alookup (nr.record.peer, nr.ns) s.regsForPeer with
          | none =>
            exact (alookup_eq_none.mp halo) _ hpair rfl
          | some old =>
            have hold : ((nr.record.peer, nr.ns), old) ∈ s.regsForPeer :=
              mem_of_alookup halo
            have : e.1 = old := congrArg Prod.snd
              (List.inj_on_of_nodup_map h.pairsNodup hpair hold rfl)
            rw [halo] at he1
            have := (List.mem_filter.mp he1).2
            simp only [decide_eq_true_eq] at this
            exact this (by assumption)
        · simp only [List.mem_singleton] at he1
          subst he1
          show _ ∈ bimapInsert (nr.record.peer, nr.ns) s.nextRegId s.regsForPeer
          rw [hb]
          unfold mapInsert
          apply List.mem_append.mpr
          right
          simp
      · show ∀ e ∈ bimapInsert (nr.record.peer, nr.ns) s.nextRegId s.regsForPeer, _
        rw [hb]
        intro e he
        unfold mapInsert at he
        rcases List.mem_append.mp he with heF | heS
        · exact Nat.lt_succ_of_lt (h.bimapFresh e (List.mem_filter.mp heF).1)
        · simp only [List.mem_singleton] at heS
          subst heS
          exact Nat.lt_succ_self _
      · intro e he
        rw [hregs2] at he
        rcases List.mem_append.mp he with he1 | he1
        · exact Nat.lt_succ_of_lt (hregs1keys e he1)
        · simp only [List.mem_singleton] at he1
          subst he1
          exact Nat.lt_succ_self _

/-- `add` replaces exactly the stored registration of its own
`(peer, namespace)` pair and leaves every other pair's entry unchanged. -/
theorem storedFor_add (s : Registrations) (nr : NewRegistration) (p : PeerId)
    (n : RNamespace) (h : WfR s) (hmax : ¬ s.maxTtl < nr.effectiveTtl)
    (hmin : ¬ nr.effectiveTtl < s.minTtl) :
    storedFor ((s.add nr).2) p n =
      if (p, n) = (nr.record.peer, nr.ns) then
        some ⟨nr.ns, nr.record, nr.effectiveTtl⟩
      else storedFor s p n := by
  rw [add_state s nr hmax hmin]
  have hb : bimapInsert (nr.record.peer, nr.ns) s.nextRegId s.regsForPeer =
      mapInsert (nr.record.peer, nr.ns) s.nextRegId s.regsForPeer :=
    bimapInsert_fresh _ _ _ (fun e he => Nat.ne_of_lt (h.bimapFresh e he))
  unfold storedFor
  simp only
  rw [hb]
  by_cases hpn : (p, n) = (nr.record.peer, nr.ns)
  · rw [if_pos hpn, hpn, alookup_mapInsert_self, Option.some_bind,
      alookup_mapInsert_self]
  · rw [if_neg hpn, alookup_mapInsert_ne _ _ hpn]
    cases halo2 : alookup (p, n) s.regsForPeer with
    | none => rfl
    | some rid2 =>
      rw [Option.some_bind, Option.some_bind]
      have hmem2 : ((p, n), rid2) ∈ s.regsForPeer := mem_of_alookup halo2
      have hr2 : rid2 ≠ s.nextRegId := Nat.ne_of_lt (h.bimapFresh _ hmem2)
      rw [alookup_mapInsert_ne _ _ hr2]
      cases halo : alookup (nr.record.peer, nr.ns) s.regsForPeer with
      | none => rfl
      | some old =>
        have hold : ((nr.record.peer, nr.ns), old) ∈ s.regsForPeer :=
          mem_of_alookup halo
        have hne : rid2 ≠ old := by
          intro h2
          exact hpn (congrArg Prod.fst
            (List.inj_on_of_nodup_map h.idsNodup hmem2 hold h2))
        exact alookup_mapRemove_ne s.registrations hne

theorem addAll_cons (s : Registrations) (r : NewRegistration)
    (rs : List NewRegistration) : addAll s (r :: rs) = addAll ((s.add r).2) rs := by
  simp [addAll]

theorem wfR_addAll (rs : List NewRegistration) (s : Registrations) (h : WfR s) :
    WfR (addAll s rs) := by
  induction rs generalizing s with
  | nil => exact h
  | cons r rest ih =>
    rw [addAll_cons]
    exact ih _ (wfR_add s r h)

theorem add_config (s : Registrations) (nr : NewRegistration) :
    ((s.add nr).2).minTtl = s.minTtl ∧ ((s.add nr).2).maxTtl = s.maxTtl := by
  unfold Registrations.add
  by_cases hmax : s.maxTtl < nr.effectiveTtl
  · simp [hmax]
  · by_cases hmin : nr.effectiveTtl < s.minTtl <;> simp [hmax, hmin]

theorem getLast?_cons_or {γ : Type} (a : γ) (l : List γ) :
    (a :: l).getLast? = l.getLast?.or (some a) := by
  cases l with
  | nil => rfl
  | cons b t =>
    rw [List.getLast?_cons_cons]
    cases hg : (b :: t).getLast? with
    | none => exact absurd (List.getLast?_eq_none_iff.mp hg) (by simp)
    | some x => rfl

theorem lastAddFor_cons (r : NewRegistration) (rs : List NewRegistration)
    (p : PeerId) (n : RNamespace) :
    lastAddFor (r :: rs) p n =
      match lastAddFor rs p n with
      | some r2 => some r2
      | none => if r.record.peer = p ∧ r.ns = n then some r else none := by
  unfold lastAddFor
  rw [List.filter_cons]
  by_cases hm : (r.record.peer = p ∧ r.ns = n)
  · rw [if_pos (decide_eq_true hm)]
    rw [getLast?_cons_or]
    cases hg : (rs.filter (fun r => decide (r.record.peer = p ∧ r.ns = n))).getLast? with
    | some r2 => rfl
    | none => simp [hm]
  · rw [if_neg (by simpa using hm)]
    cases hg : (rs.filter (fun r => decide (r.record.peer = p ∧ r.ns = n))).getLast? with
    | some r2 => rfl
    | none => simp [hm]

/-- After a whole sequence of in-range `add` calls, the stored registration of
any pair is exactly the content of the last `add` for that pair. -/
theorem storedFor_addAll (rs : List NewRegistration) (s : Registrations)
    (p : PeerId) (n : RNamespace) (h : WfR s)
    (hok : ∀ r ∈ rs, ¬ s.maxTtl < r.effectiveTtl ∧ ¬ r.effectiveTtl < s.minTtl) :
    storedFor (addAll s rs) p n =
      match lastAddFor rs p n with
      | some r => some ⟨r.ns, r.record, r.effectiveTtl⟩
      | none => storedFor s p n := by
  induction rs generalizing s with
  | nil => rfl
  | cons r rest ih =>
    rw [addAll_cons, lastAddFor_cons]
    have hcfg := add_config s r
    have hok1 := hok r (by simp)
    have hrest : ∀ r2 ∈ rest, ¬ ((s.add r).2).maxTtl < r2.effectiveTtl ∧
        ¬ r2.effectiveTtl < ((s.add r).2).minTtl := by
      intro r2 h2
      rw [hcfg.1, hcfg.2]
      exact hok r2 (by simp [h2])
    rw [ih ((s.add r).2) (wfR_add s r h) hrest]
    cases hlast : lastAddFor rest p n with
    | some r2 => rfl
    | none =>
      rw [storedFor_add s r p n h hok1.1 hok1.2]
      by_cases hpn : (p, n) = (r.record.peer, r.ns)
      · rw [if_pos hpn]
        have h1 : p = r.record.peer := congrArg Prod.fst hpn
        have h2 : n = r.ns := congrArg Prod.snd hpn
        rw [if_pos ⟨h1.symm, h2.symm⟩]
      · rw [if_neg hpn]
        have hcond : ¬ (r.record.peer = p ∧ r.ns = n) := by
          intro hc
          exact hpn (by rw [hc.1, hc.2])
        rw [if_neg hcond]

/-- Evaluation of `get` for a specific namespace with no cookie and no
limit. -/
theorem get_eval (s : Registrations) (n : RNamespace) :
    (s.get (some n) none none).1 =
      .ok ((s.regsForPeer.filter (fun e => decide (e.1.2 = n))).map (fun e => e.2),
        ((s.regsForPeer.filter (fun e => decide (e.1.2 = n))).map
          (fun e => e.2)).filterMap (fun i => alookup i s.registrations),
        ⟨s.nextCookieId, some n⟩) := by
  rfl

/-- Filtering the output of a namespace-restricted discovery to one peer
yields exactly the registration stored for that `(peer, namespace)` pair. -/
theorem filterOut (L : List ((PeerId × RNamespace) × Nat))
    (regs : List (Nat × Registration)) (p : PeerId) (n : RNamespace)
    (hnodup : (L.map (fun e => e.1)).Nodup)
    (hreg : ∀ e ∈ L, ∃ r, alookup e.2 regs = some r ∧
      r.record.peer = e.1.1 ∧ r.ns = e.1.2) :
    ((L.filter (fun e => decide (e.1.2 = n))).filterMap
        (fun e => alookup e.2 regs)).filter (fun rg => decide (rg.record.peer = p)) =
      ((alookup (p, n) L).bind (fun rid => alookup rid regs)).toList := by
  induction L with
  | nil => rfl
  | cons e t ih =>
    rw [List.map_cons, List.nodup_cons] at hnodup
    obtain ⟨r, hr, hr1, hr2⟩ := hreg e (by simp)
    have hregt : ∀ e2 ∈ t, ∃ r2, alookup e2.2 regs = some r2 ∧
        r2.record.peer = e2.1.1 ∧ r2.ns = e2.1.2 :=
      fun e2 h2 => hreg e2 (by simp [h2])
    rw [alookup_cons]
    by_cases hk : e.1 = (p, n)
    · rw [if_pos hk]
      have hns : e.1.2 = n := congrArg Prod.snd hk
      rw [List.filter_cons, if_pos (decide_eq_true hns)]
      rw [List.filterMap_cons, hr]
      have hrp : r.record.peer = p := by
        rw [hr1, hk]
      rw [List.filter_cons, if_pos (decide_eq_true hrp)]
      have htnone : alookup (p, n) t = none := by
        rw [alookup_eq_none]
        intro e2 he2 hke
        exact hnodup.1 (by rw [hk, ← hke]; exact List.mem_map_of_mem _ he2)
      rw [ih hnodup.2 hregt, htnone]
      simp [hr]
    · rw [if_neg hk]
      by_cases hns : e.1.2 = n
      · rw [List.filter_cons, if_pos (decide_eq_true hns)]
        rw [List.filterMap_cons, hr]
        have hne : ¬ (r.record.peer = p) := by
          rw [hr1]
          intro h1
          apply hk
          rw [← h1, ← hns]
        rw [List.filter_cons, if_neg (by simpa using hne)]
        exact ih hnodup.2 hregt
      · rw [List.filter_cons, if_neg (by simpa using hns)]
        exact ih hnodup.2 hregt

/-- Under the store invariant, at most one stored registration matches any
`(peer, namespace)` pair. -/
theorem atMostOne (s : Registrations) (h : WfR s) (p2 : PeerId) (n2 : RNamespace) :
    (s.registrations.filter
      (fun e => decide (e.2.record.peer = p2 ∧ e.2.ns = n2))).length ≤ 1 := by
  apply length_le_one_of_nodup_allEq
  · exact (List.Nodup.of_map _ h.regKeysNodup).filter _
  · intro a ha b hb
    have haM := List.mem_filter.mp ha
    have hbM := List.mem_filter.mp hb
    have ha2 := haM.2
    have hb2 := hbM.2
    simp only [decide_eq_true_eq] at ha2 hb2
    have hpa := h.toBimap a haM.1
    have hpb := h.toBimap b hbM.1
    rw [ha2.1, ha2.2] at hpa
    rw [hb2.1, hb2.2] at hpb
    have hentry := List.inj_on_of_nodup_map h.pairsNodup hpa hpb rfl
    exact List.inj_on_of_nodup_map h.regKeysNodup haM.1 hbM.1
      (congrArg Prod.snd hentry)

/-- C3 — Registration uniqueness: after any sequence of successful `add`
calls, at most one registration is stored for every `(peer, namespace)`
pair, and a `get` filtered to the namespace returns exactly one entry for
that peer, whose content (record and effective TTL) is that of the latest
`add` for the pair; the earlier registration for the same pair has been
replaced. -/
theorem rendezvous_registration_uniqueness (minT maxT : Nat)
    (rs : List NewRegistration) (p : PeerId) (n : RNamespace)
    (hok : ∀ r ∈ rs, minT ≤ r.effectiveTtl ∧ r.effectiveTtl ≤ maxT)
    (hmem : ∃ r, r ∈ rs ∧ r.record.peer = p ∧ r.ns = n) :
    (∀ p2 n2, ((addAll (Registrations.withConfig minT maxT) rs).registrations.filter
        (fun e => decide (e.2.record.peer = p2 ∧ e.2.ns = n2))).length ≤ 1) ∧
    ∃ rLast ids regs ck,
      lastAddFor rs p n = some rLast ∧ rLast.record.peer = p ∧ rLast.ns = n ∧
      ((addAll (Registrations.withConfig minT maxT) rs).get (some n) none none).1 =
        .ok (ids, regs, ck) ∧
      regs.filter (fun rg => decide (rg.record.peer = p)) =
        [⟨n, rLast.record, rLast.effectiveTtl⟩] := by
  have hwf : WfR (addAll (Registrations.withConfig minT maxT) rs) :=
    wfR_addAll rs _ (wfR_withConfig minT maxT)
  constructor
  · exact fun p2 n2 => atMostOne _ hwf p2 n2
  · obtain ⟨r0, hr0mem, hr0p, hr0n⟩ := hmem
    have hfilne : rs.filter (fun r => decide (r.record.peer = p ∧ r.ns = n)) ≠ [] := by
      intro hnil
      have := List.filter_eq_nil_iff.mp hnil r0 hr0mem
      simp [hr0p, hr0n] at this
    cases hlast : lastAddFor rs p n with
    | none =>
      unfold lastAddFor at hlast
      rw [List.getLast?_eq_none_iff] at hlast
      exact absurd hlast hfilne
    | some rLast =>
      have hLmem : rLast ∈ rs.filter (fun r => decide (r.record.peer = p ∧ r.ns = n)) :=
        List.mem_of_mem_getLast? hlast
      have hLpred := (List.mem_filter.mp hLmem).2
      simp only [decide_eq_true_eq] at hLpred
      have hstored : storedFor (addAll (Registrations.withConfig minT maxT) rs) p n =
          some ⟨rLast.ns, rLast.record, rLast.effectiveTtl⟩ := by
        rw [storedFor_addAll rs _ p n (wfR_withConfig minT maxT) ?_, hlast]
        intro r hr
        have := hok r hr
        exact ⟨Nat.not_lt.mpr this.2, Nat.not_lt.mpr this.1⟩
      have hfinal : ((((addAll (Registrations.withConfig minT maxT) rs).regsForPeer.filter
          (fun e => decide (e.1.2 = n))).map (fun e => e.2)).filterMap
            (fun i => alookup i
              (addAll (Registrations.withConfig minT maxT) rs).registrations)).filter
            (fun rg => decide (rg.record.peer = p)) =
          [⟨n, rLast.record, rLast.effectiveTtl⟩] := by
        rw [List.filterMap_map]
        have hcomp : ((fun i => alookup i
              (addAll (Registrations.withConfig minT maxT) rs).registrations) ∘
            (fun e : (PeerId × RNamespace) × Nat => e.2)) =
            (fun e : (PeerId × RNamespace) × Nat => alookup e.2
              (addAll (Registrations.withConfig minT maxT) rs).registrations) := rfl
        rw [hcomp]
        rw [filterOut _ _ p n hwf.pairsNodup hwf.toReg]
        show (storedFor (addAll (Registrations.withConfig minT maxT) rs) p n).toList = _
        rw [hstored, hLpred.2]
        rfl
      exact ⟨rLast, _, _, _, rfl, hLpred.1, hLpred.2, get_eval _ n, hfinal⟩

/-- C3 witness: `rendezvous_registration_uniqueness` applied to two adds for
the same `(peer, namespace)` pair. -/
theorem rendezvous_registration_uniqueness_witness :
    ((addAll (Registrations.withConfig 0 100)
        [⟨1, ⟨7, 0⟩, some 5⟩, ⟨1, ⟨7, 1⟩, some 6⟩]).registrations.filter
      (fun e => decide (e.2.record.peer = 7 ∧ e.2.ns = 1))).length ≤ 1 :=
  (rendezvous_registration_uniqueness 0 100
    [⟨1, ⟨7, 0⟩, some 5⟩, ⟨1, ⟨7, 1⟩, some 6⟩] 7 1 (by decide)
    ⟨⟨1, ⟨7, 1⟩, some 6⟩, by decide, rfl, rfl⟩).1 7 1

/-! ### C1 — Cookie monotonicity -/

theorem add_cookies (s : Registrations) (nr : NewRegistration) :
    ((s.add nr).2).cookies = s.cookies := by
  unfold Registrations.add
  by_cases hmax : s.maxTtl < nr.effectiveTtl
  · simp [hmax]
  · by_cases hmin : nr.effectiveTtl < s.minTtl <;> simp [hmax, hmin]

theorem remove_cookies (s : Registrations) (n : RNamespace) (p : PeerId) :
    (s.remove n p).cookies = s.cookies := by
  unfold Registrations.remove
  cases h : alookup (p, n) s.regsForPeer <;> rfl

theorem mem_takeLimit (lim : Option Nat) (l : List Nat) (x : Nat)
    (h : x ∈ takeLimit lim l) : x ∈ l := by
  cases lim with
  | none => exact h
  | some k => exact List.take_subset k l h

theorem get_error_state (s : Registrations) (dns : Option RNamespace)
    (c : Option Cookie) (lim : Option Nat)
    (h : ∃ e, (s.get dns c lim).1 = .error e) : (s.get dns c lim).2 = s := by
  unfold Registrations.get at h ⊢
  by_cases hv : cookieValid dns (c.bind Cookie.ns) = true <;> simp [hv] at h ⊢

/-- What a successful `get` does to the cookie map, and that the returned ids
avoid the delivered set of the supplied cookie. -/
theorem get_ok_state (s : Registrations) (dns : Option RNamespace)
    (c : Option Cookie) (lim : Option Nat) (ids : List Nat)
    (regs : List Registration) (ck : Cookie) (s2 : Registrations)
    (h : s.get dns c lim = (.ok (ids, regs, ck), s2)) :
    s2.cookies = mapInsert ck
      (((c.bind (fun ck2 => alookup ck2 s.cookies)).getD []) ++ ids) s.cookies ∧
    ∀ x ∈ ids, x ∉ ((c.bind (fun ck2 => alookup ck2 s.cookies)).getD []) := by
  unfold Registrations.get at h
  by_cases hv : cookieValid dns (c.bind Cookie.ns) = true
  · rw [if_pos hv] at h
    rw [Prod.mk.injEq] at h
    have h1 := h.1
    have h2 := h.2
    simp only [Except.ok.injEq, Prod.mk.injEq] at h1
    obtain ⟨hids, _, hck⟩ := h1
    constructor
    · rw [← h2, ← hck, ← hids]
    · intro x hx
      rw [← hids] at hx
      have hx2 := mem_takeLimit lim _ x hx
      obtain ⟨e, he, hex⟩ := List.mem_map.mp hx2
      have hpred := (List.mem_filter.mp he).2
      unfold regMatches at hpred
      by_cases hcont : ((c.bind (fun ck2 => alookup ck2 s.cookies)).getD []).contains e.2
      · rw [if_pos hcont] at hpred
        exact absurd hpred (by simp)
      · intro hmem
        rw [← hex] at hmem
        exact hcont (List.elem_iff.mpr hmem)
  · rw [if_neg hv] at h
    rw [Prod.mk.injEq] at h
    exact absurd h.1 (by simp)

/-- One chain operation preserves the chain invariant. -/
theorem chainInv_step (cs : ChainState) (op : StoreOp) (h : chainInv cs) :
    chainInv (stepOp cs op) := by
  obtain ⟨h1, h2, h3⟩ := h
  cases op with
  | addOp nr =>
    refine ⟨h1, ?_, h3⟩
    intro c hc
    obtain ⟨D, hD, hcov⟩ := h2 c hc
    refine ⟨D, ?_, hcov⟩
    show alookup c ((cs.store.add nr).2).cookies = some D
    rw [add_cookies]
    exact hD
  | removeOp n p =>
    refine ⟨h1, ?_, h3⟩
    intro c hc
    obtain ⟨D, hD, hcov⟩ := h2 c hc
    refine ⟨D, ?_, hcov⟩
    show alookup c ((cs.store.remove n p).cookies) = some D
    rw [remove_cookies]
    exact hD
  | discoverOp n lim =>
    show chainInv (match cs.store.get n cs.cookie lim with
      | (.ok r, s2) =>
        { store := s2, cookie := some r.2.2, delivered := cs.delivered ++ [r.1] }
      | (.error _, s2) => { cs with store := s2 })
    cases hget : cs.store.get n cs.cookie lim with
    | mk res s2 =>
      cases res with
      | error e =>
        have hs2 : s2 = cs.store := by
          have hh := get_error_state cs.store n cs.cookie lim ⟨e, by rw [hget]⟩
          rw [hget] at hh
          exact hh
        subst hs2
        exact ⟨h1, fun c hc => h2 c hc, h3⟩
      | ok r =>
        obtain ⟨ids, regs, ck⟩ := r
        obtain ⟨hcook, hdisj⟩ := get_ok_state cs.store n cs.cookie lim ids regs ck s2 hget
        refine ⟨?_, ?_, ?_⟩
        · intro hc
          exact absurd hc (by simp)
        · intro c hc
          have hcc : ck = c := by simpa using hc
          subst hcc
          refine ⟨((cs.cookie.bind (fun ck2 => alookup ck2 cs.store.cookies)).getD []) ++
            ids, ?_, ?_⟩
          · show alookup ck s2.cookies = _
            rw [hcook]
            exact alookup_mapInsert_self _ _ _
          · intro A hA x hx
            rcases List.mem_append.mp hA with hA1 | hA1
            · cases hck0 : cs.cookie with
              | none =>
                rw [h1 hck0] at hA1
                exact absurd hA1 (List.not_mem_nil A)
              | some c0 =>
                obtain ⟨D0, hD0, hcov0⟩ := h2 c0 hck0
                have hD0eq : (((some c0 : Option Cookie)).bind
                    (fun ck2 => alookup ck2 cs.store.cookies)).getD [] = D0 := by
                  simp [hD0]
                rw [hD0eq]
                exact List.mem_append.mpr (Or.inl (hcov0 A hA1 x hx))
            · simp only [List.mem_singleton] at hA1
              subst hA1
              exact List.mem_append.mpr (Or.inr hx)
        · show List.Pairwise DisjointLists (cs.delivered ++ [ids])
          rw [List.pairwise_append]
          refine ⟨h3, by simp [List.pairwise_singleton], ?_⟩
          intro A hA B hB
          simp only [List.mem_singleton] at hB
          subst hB
          intro x hxA hxIds
          cases hck0 : cs.cookie with
          | none =>
            rw [h1 hck0] at hA
            exact absurd hA (List.not_mem_nil A)
          | some c0 =>
            obtain ⟨D0, hD0, hcov0⟩ := h2 c0 hck0
            rw [hck0] at hdisj
            have hD0eq : (((some c0 : Option Cookie)).bind
                (fun ck2 => alookup ck2 cs.store.cookies)).getD [] = D0 := by
              simp [hD0]
            exact hdisj x hxIds (by rw [hD0eq]; exact hcov0 A hA x hxA)

theorem chainInv_hold (ops : List StoreOp) (cs : ChainState) (h : chainInv cs) :
    chainInv (ops.foldl stepOp cs) := by
  induction ops generalizing cs with
  | nil => exact h
  | cons op rest ih =>
    rw [List.foldl_cons]
    exact ih _ (chainInv_step cs op h)

/-- C1 — Cookie monotonicity: along any chain of `get` calls in which each
call passes the cookie returned by the previous one (the first passing no
cookie), with arbitrary interleaved `add` and `remove` operations, the id
lists returned by the successful `get` calls are pairwise disjoint: no
registration id is delivered to the chain more than once. -/
theorem rendezvous_cookie_monotonicity (minT maxT : Ttl) (ops : List StoreOp) :
    List.Pairwise DisjointLists (runChain minT maxT ops).delivered := by
  have hinit : chainInv ⟨Registrations.withConfig minT maxT, none, []⟩ := by
    refine ⟨fun _ => rfl, ?_, List.Pairwise.nil⟩
    intro c hc
    exact absurd hc (by simp)
  exact (chainInv_hold ops ⟨Registrations.withConfig minT maxT, none, []⟩ hinit).2.2

end LibP2P
